import Mathlib

/-!
Verification of the FNUZ 8-bit floating-point codec (`Float8_e4m3fnuz`,
`Float8_e5m2fnuz`) against its specification.

The repository sources under verification are:
* `c10/util/Float8_e4m3fnuz.h` — the `Float8_e4m3fnuz` wrapper type, whose
  float constructor calls `detail::fp8_fnuz_from_fp32_value<4,3,float,true,true>`
  and whose `operator float()` calls `detail::fp8_fnuz_to_fp32_value<4,3,float,true>`;
* `Float8_e5m2fnuz.h` — the analogous `Float8_e5m2fnuz` wrapper
  (`fp8_fnuz_from_fp32_value<5,2,float,true,true>` / `fp8_fnuz_to_fp32_value<5,2,float,true>`);
* `Float8_e4m3fnuz-inl.h` — `isnan`, the arithmetic operators (decode to
  float32, operate, re-encode) and the `std::numeric_limits` table.

The shared conversion header `c10/util/Float8_fnuz_cvt.h` (the encoder/decoder
bodies) is not part of the provided sources, so the codec core is modelled
from the specification's contracts (BitView, RoundingPolicy, Encoder, Decoder,
FormatConfig); definitions modelled this way carry a `Modelled from the spec:`
doc comment.

float32 values are embedded as their IEEE-754 bit fields (sign, 8-bit biased
exponent, 23-bit mantissa) with exact rational semantics; machine words are
`Nat` with explicit bounds.
-/

namespace Fnuz

/-- DecomposedFloat from the spec's data model: the three IEEE-754 binary32
bit fields of a 32-bit float — sign, 8-bit biased exponent, 23-bit mantissa
(the class is derived from the fields). -/
structure DecomposedFloat where
  sign : Bool
  ex : Nat
  frac : Nat
  deriving DecidableEq, Repr

/-- BitView `decompose`: extract sign, biased exponent and mantissa from a
32-bit word. -/
def decompose (w : Nat) : DecomposedFloat :=
  ⟨w / 2 ^ 31 % 2 = 1, w / 2 ^ 23 % 2 ^ 8, w % 2 ^ 23⟩

/-- BitView `compose`: pack sign, biased exponent and mantissa back into a
32-bit word. -/
def compose (d : DecomposedFloat) : Nat :=
  (if d.sign then 2 ^ 31 else 0) + d.ex * 2 ^ 23 + d.frac

/-- A well-formed decomposed float32: exponent and mantissa fields in range. -/
def DecomposedFloat.valid (d : DecomposedFloat) : Prop :=
  d.ex < 2 ^ 8 ∧ d.frac < 2 ^ 23

instance (d : DecomposedFloat) : Decidable d.valid := by
  unfold DecomposedFloat.valid; infer_instance

/-- Class `nan`: exponent field all ones and nonzero mantissa. -/
def DecomposedFloat.isNan (d : DecomposedFloat) : Bool :=
  d.ex == 255 && d.frac != 0

/-- Class `inf`: exponent field all ones and zero mantissa. -/
def DecomposedFloat.isInf (d : DecomposedFloat) : Bool :=
  d.ex == 255 && d.frac == 0

/-- Class `zero`: both fields zero. -/
def DecomposedFloat.isZero (d : DecomposedFloat) : Bool :=
  d.ex == 0 && d.frac == 0

/-- The 24-bit significand of a float32: the mantissa with the implicit
leading 1 for normal numbers, the bare mantissa for subnormals. -/
def sig24 (d : DecomposedFloat) : Nat :=
  if d.ex = 0 then d.frac else 2 ^ 23 + d.frac

/-- The unbiased exponent of a float32 (subnormals scale by `1 - 127`). -/
def unbExp (d : DecomposedFloat) : ℤ :=
  (if d.ex = 0 then 1 else (d.ex : ℤ)) - 127

/-- Exact rational value of a finite float32:
`± significand · 2 ^ (unbiased exponent − 23)`. -/
def fval (d : DecomposedFloat) : ℚ :=
  (if d.sign then -1 else 1) * (sig24 d : ℚ) * (2 : ℚ) ^ (unbExp d - 23)

/-- Exact rational value of a finite float32 word. -/
def val32 (w : Nat) : ℚ := fval (decompose w)

/-- FormatConfig from the spec's data model: exponent width, mantissa width,
exponent bias and the maximum finite magnitude of the narrow format. -/
structure FormatConfig where
  exponent_bits : Nat
  mantissa_bits : Nat
  bias : ℤ
  max_finite_magnitude : ℚ
  deriving Repr

/-- The e4m3fnuz format: `s eeee mmm`, bias 8, maximum finite 240. -/
def e4m3fnuzCfg : FormatConfig := ⟨4, 3, 8, 240⟩

/-- The e5m2fnuz format: `s eeeee mm`, bias 16, maximum finite 57344. -/
def e5m2fnuzCfg : FormatConfig := ⟨5, 2, 16, 57344⟩

/-- Unbiased exponent of the format's largest finite value. -/
def FormatConfig.maxExp (cfg : FormatConfig) : ℤ :=
  (2 ^ cfg.exponent_bits - 1 : ℤ) - cfg.bias

/-- The float32 decomposition of the format's largest finite magnitude, with
the requested sign: significand all ones down to the format's mantissa width. -/
def FormatConfig.maxBoundDF (cfg : FormatConfig) (s : Bool) : DecomposedFloat :=
  ⟨s, (cfg.maxExp + 127).toNat, (2 ^ cfg.mantissa_bits - 1) * 2 ^ (23 - cfg.mantissa_bits)⟩

/-- The magnitude bits of the format's largest finite code (all exponent and
mantissa bits set; `0x7F` in both instances). -/
def FormatConfig.maxFiniteCode (cfg : FormatConfig) : Nat :=
  (2 ^ cfg.exponent_bits - 1) * 2 ^ cfg.mantissa_bits + (2 ^ cfg.mantissa_bits - 1)

/-- Modelled from the spec: the RoundingPolicy of `Float8_fnuz_cvt.h` (absent
from the provided sources). Given the kept mantissa bits `k`, the discarded
low bits `r` of width `D`, decide whether to round up: standard mode rounds to
nearest with ties to even (round up when `r` exceeds half the discarded range,
or equals half and the lowest kept bit is odd); stochastic mode rounds up
exactly when the caller-supplied random bits, reduced to the discarded range,
are below `r`. -/
def roundsUp (stochastic : Bool) (rng : Nat) (D : Nat) (k r : Nat) : Bool :=
  if stochastic then decide (rng % 2 ^ D < r)
  else decide (2 ^ (D - 1) < r) || (decide (r = 2 ^ (D - 1)) && decide (k % 2 = 1))

/-- Number of low significand bits discarded when narrowing: `23 − mb`
plus, when the target biased exponent `t` is at most 0 (subnormal range),
the extra `1 − t` positions of subnormal right-shift. -/
def encShift (cfg : FormatConfig) (t : ℤ) : Nat :=
  23 - cfg.mantissa_bits + (1 - t).toNat

/-- Rounded kept significand: the kept bits of `m0` plus the rounding
increment decided by the RoundingPolicy. -/
def roundSig (stochastic : Bool) (rng : Nat) (D : Nat) (m0 : Nat) : Nat :=
  m0 / 2 ^ D + (if roundsUp stochastic rng D (m0 / 2 ^ D) (m0 % 2 ^ D) then 1 else 0)

/-- Exact comparison of the magnitudes `|a| > |b|` of two decomposed floats:
`sig_a · 2 ^ e_a > sig_b · 2 ^ e_b`, carried out in ℕ after shifting by the
exponent difference. -/
def magGT (a b : DecomposedFloat) : Bool :=
  decide (sig24 b * 2 ^ (unbExp b - unbExp a).toNat <
    sig24 a * 2 ^ (unbExp a - unbExp b).toNat)

/-- Modelled from the spec: Encoder step 2 of `Float8_fnuz_cvt.h` (absent from
the provided sources). Clip the value to `[−max, +max]` before rounding:
infinities and finite values whose magnitude exceeds `max_finite_magnitude`
(the value of `maxBoundDF`) are replaced by the bound of the same sign. -/
def clip (cfg : FormatConfig) (d : DecomposedFloat) : DecomposedFloat :=
  if d.isInf || magGT d (cfg.maxBoundDF false) then cfg.maxBoundDF d.sign
  else d

/-- Stored exponent field and mantissa field from the target biased exponent
`t` and the rounded kept significand `k1`: the subnormal path (`t ≤ 0`) stores
exponent 0, promoting to the first normal step when rounding carried out of
the mantissa; the normal path stores `t`, bumping the exponent when the carry
doubled the significand. -/
def encStore (cfg : FormatConfig) (t : ℤ) (k1 : Nat) : ℤ × Nat :=
  if t ≤ 0 then
    if 2 ^ cfg.mantissa_bits ≤ k1 then (1, k1 - 2 ^ cfg.mantissa_bits) else (0, k1)
  else
    if 2 ^ (cfg.mantissa_bits + 1) ≤ k1 then (t + 1, 0) else (t, k1 - 2 ^ cfg.mantissa_bits)

/-- Pack an exponent/mantissa pair into the 8-bit code, saturating to the
maximum finite code of the same sign when the exponent field overflows the
format, and canonicalizing any zero-magnitude result to the unsigned zero
code `0x00`. -/
def packCode (cfg : FormatConfig) (s : Bool) (f : ℤ) (m : Nat) : Nat :=
  if (2 ^ cfg.exponent_bits - 1 : ℤ) < f then
    (if s then 128 else 0) + cfg.maxFiniteCode
  else if f = 0 ∧ m = 0 then 0
  else (if s then 128 else 0) + f.toNat * 2 ^ cfg.mantissa_bits + m

/-- Modelled from the spec: the Encoder of `Float8_fnuz_cvt.h`
(`fp8_fnuz_from_fp32_value`, absent from the provided sources), acting on a
decomposed float32. NaN inputs collapse to the sentinel `0x80`; other inputs
are clipped to the finite range, shifted into the target's subnormal range if
needed, rounded by the RoundingPolicy with carry propagation, saturated
post-rounding, zero-canonicalized and packed. -/
def encodeDF (cfg : FormatConfig) (d : DecomposedFloat) (stochastic : Bool) (rng : Nat) : Nat :=
  if d.isNan then 128
  else
    packCode cfg (clip cfg d).sign
      (encStore cfg (unbExp (clip cfg d) + cfg.bias)
        (roundSig stochastic rng (encShift cfg (unbExp (clip cfg d) + cfg.bias))
          (sig24 (clip cfg d)))).1
      (encStore cfg (unbExp (clip cfg d) + cfg.bias)
        (roundSig stochastic rng (encShift cfg (unbExp (clip cfg d) + cfg.bias))
          (sig24 (clip cfg d)))).2

/-- Modelled from the spec: the Encoder on a float32 word. -/
def encode (cfg : FormatConfig) (w : Nat) (stochastic : Bool) (rng : Nat) : Nat :=
  encodeDF cfg (decompose w) stochastic rng

/-- Floor of the base-2 logarithm on ℕ, by structural recursion on a fuel
argument, so that it reduces definitionally. -/
def floorLog2Fuel : Nat → Nat → Nat
  | 0, _ => 0
  | fuel + 1, n => if n < 2 then 0 else floorLog2Fuel fuel (n / 2) + 1

/-- Floor of the base-2 logarithm on ℕ (`floorLog2 0 = 0`). -/
def floorLog2 (n : Nat) : Nat := floorLog2Fuel n n

/-- Modelled from the spec: the Decoder of `Float8_fnuz_cvt.h`
(`fp8_fnuz_to_fp32_value`, absent from the provided sources), producing the
decomposed float32. The sentinel `0x80` yields a quiet NaN; exponent field 0
is the subnormal range `± m · 2 ^ (1 − bias − mb)` (renormalized into float32
normal form); otherwise `± (2^mb + m) · 2 ^ (f − bias − mb)`. -/
def decodeDF (cfg : FormatConfig) (c : Nat) : DecomposedFloat :=
  if c = 128 then ⟨false, 255, 2 ^ 22⟩
  else if c / 2 ^ cfg.mantissa_bits % 2 ^ cfg.exponent_bits = 0 then
    if c % 2 ^ cfg.mantissa_bits = 0 then ⟨false, 0, 0⟩
    else
      ⟨c / 2 ^ 7 % 2 = 1,
        (1 - cfg.bias - cfg.mantissa_bits + floorLog2 (c % 2 ^ cfg.mantissa_bits) +
          127).toNat,
        c % 2 ^ cfg.mantissa_bits * 2 ^ (23 - floorLog2 (c % 2 ^ cfg.mantissa_bits)) -
          2 ^ 23⟩
  else
    ⟨c / 2 ^ 7 % 2 = 1,
      (((c / 2 ^ cfg.mantissa_bits % 2 ^ cfg.exponent_bits : ℕ) : ℤ) - cfg.bias + 127).toNat,
      c % 2 ^ cfg.mantissa_bits * 2 ^ (23 - cfg.mantissa_bits)⟩

/-- Modelled from the spec: the Decoder to a float32 word. -/
def decode (cfg : FormatConfig) (c : Nat) : Nat :=
  compose (decodeDF cfg c)

/-- The value prescribed by the spec's Decoder contract for a non-sentinel
code: `sign × (m / 2^mb) × 2^(1 − bias)` when the exponent field is zero,
`sign × (1 + m / 2^mb) × 2^(f − bias)` otherwise. -/
def specDecodeVal (cfg : FormatConfig) (c : Nat) : ℚ :=
  (if c / 2 ^ 7 % 2 = 1 then -1 else 1) *
    (if c / 2 ^ cfg.mantissa_bits % 2 ^ cfg.exponent_bits = 0 then
      ((c % 2 ^ cfg.mantissa_bits : Nat) : ℚ) / 2 ^ cfg.mantissa_bits *
        (2 : ℚ) ^ (1 - cfg.bias)
    else
      (1 + ((c % 2 ^ cfg.mantissa_bits : Nat) : ℚ) / 2 ^ cfg.mantissa_bits) *
        (2 : ℚ) ^ ((c / 2 ^ cfg.mantissa_bits % 2 ^ cfg.exponent_bits : Nat) - cfg.bias))

/-- One unit in the last place of the narrow format at the binade of the
float32 value `d`: `2 ^ (e − mb)` for `d` in the format's normal range, and
the subnormal step `2 ^ (1 − bias − mb)` below it. -/
def ulpAt (cfg : FormatConfig) (d : DecomposedFloat) : ℚ :=
  (2 : ℚ) ^ max (1 - cfg.bias - cfg.mantissa_bits) (unbExp d - cfg.mantissa_bits)

/-! ### float32 arithmetic

The arithmetic wrapper of `Float8_e4m3fnuz-inl.h` converts both operands to
`float`, operates at 32-bit precision and re-encodes.  The following models
IEEE-754 binary32 round-to-nearest-even on finite values (the only values the
decoder produces besides the quiet NaN, which is propagated). -/

/-- Floor of the base-2 logarithm of a positive rational, computed from the
integer logarithms of numerator and denominator with correction. -/
def ratFloorLog2 (q : ℚ) : ℤ :=
  let c : ℤ := (Nat.log2 q.num.toNat : ℤ) - (Nat.log2 q.den : ℤ)
  if q < (2 : ℚ) ^ c then c - 1 else if q < (2 : ℚ) ^ (c + 1) then c else c + 1

/-- Round a rational to the nearest integer, ties to even. -/
def ratRNE (x : ℚ) : ℤ :=
  if 1 / 2 < x - ⌊x⌋ then ⌊x⌋ + 1
  else if x - ⌊x⌋ < 1 / 2 then ⌊x⌋
  else if ⌊x⌋ % 2 = 0 then ⌊x⌋ else ⌊x⌋ + 1

/-- Round a positive rational to the nearest float32 (ties to even), as a
decomposed float: overflow beyond the largest binade produces infinity,
magnitudes below the normal range round in the fixed-point subnormal grid. -/
def f32ofRatPos (s : Bool) (q : ℚ) : DecomposedFloat :=
  let e := ratFloorLog2 q
  if 127 < e then ⟨s, 255, 0⟩
  else if e < -126 then
    let m := (ratRNE (q * (2 : ℚ) ^ (149 : ℤ))).toNat
    if 2 ^ 23 ≤ m then ⟨s, 1, m - 2 ^ 23⟩ else ⟨s, 0, m⟩
  else
    let m := (ratRNE (q * (2 : ℚ) ^ (23 - e))).toNat
    if 2 ^ 24 ≤ m then
      (if e = 127 then ⟨s, 255, 0⟩ else ⟨s, (e + 1 + 127).toNat, 0⟩)
    else ⟨s, (e + 127).toNat, m - 2 ^ 23⟩

/-- Round any rational to the nearest float32 word (ties to even); zero maps
to `+0.0`. -/
def f32ofRat (q : ℚ) : Nat :=
  if q = 0 then 0
  else if 0 < q then compose (f32ofRatPos false q)
  else compose (f32ofRatPos true (-q))

/-- The canonical quiet-NaN float32 word `0x7FC00000`. -/
def qNaN32 : Nat := compose ⟨false, 255, 2 ^ 22⟩

/-- float32 addition at 32-bit precision on finite-or-NaN words: NaN
propagates, otherwise the exact sum is rounded to the nearest float32. -/
def f32add (a b : Nat) : Nat :=
  if (decompose a).isNan || (decompose b).isNan then qNaN32
  else f32ofRat (val32 a + val32 b)

/-- float32 subtraction at 32-bit precision on finite-or-NaN words. -/
def f32sub (a b : Nat) : Nat :=
  if (decompose a).isNan || (decompose b).isNan then qNaN32
  else f32ofRat (val32 a - val32 b)

/-- float32 multiplication at 32-bit precision on finite-or-NaN words. -/
def f32mul (a b : Nat) : Nat :=
  if (decompose a).isNan || (decompose b).isNan then qNaN32
  else f32ofRat (val32 a * val32 b)

/-- float32 division at 32-bit precision on finite-or-NaN words: division by
zero yields an infinity of the product sign (NaN when the dividend is also
zero), otherwise the exact quotient is rounded to the nearest float32. -/
def f32div (a b : Nat) : Nat :=
  if (decompose a).isNan || (decompose b).isNan then qNaN32
  else if val32 b = 0 then
    if val32 a = 0 then qNaN32
    else compose ⟨(decompose a).sign != (decompose b).sign, 255, 0⟩
  else f32ofRat (val32 a / val32 b)

end Fnuz

namespace Float8_e4m3fnuz

/-- `Float8_e4m3fnuz::Float8_e4m3fnuz(float, rounding_mode, uint32_t)` from
`Float8_e4m3fnuz.h`: the stored code is
`fp8_fnuz_from_fp32_value<4,3,float,true,true>(v, rm == stochastic, rng)`. -/
def ofFloat (w : Nat) (stochastic : Bool) (rng : Nat) : Nat :=
  Fnuz.encode Fnuz.e4m3fnuzCfg w stochastic rng

/-- `Float8_e4m3fnuz::operator float()` from `Float8_e4m3fnuz.h`:
`fp8_fnuz_to_fp32_value<4,3,float,true>(x)`. -/
def toFloat (x : Nat) : Nat :=
  Fnuz.decode Fnuz.e4m3fnuzCfg x

/-- `Float8_e4m3fnuz::isnan()` from `Float8_e4m3fnuz-inl.h`:
`x == 0b10000000`. -/
def isnan (x : Nat) : Bool :=
  x == 0b10000000

/-- `operator+(const Float8_e4m3fnuz&, const Float8_e4m3fnuz&)` from
`Float8_e4m3fnuz-inl.h`: `static_cast<float>(a) + static_cast<float>(b)`,
implicitly re-encoded by the float constructor with default arguments
(standard rounding, rng 0). -/
def add (a b : Nat) : Nat :=
  ofFloat (Fnuz.f32add (toFloat a) (toFloat b)) false 0

/-- `operator-` (binary) from `Float8_e4m3fnuz-inl.h`. -/
def sub (a b : Nat) : Nat :=
  ofFloat (Fnuz.f32sub (toFloat a) (toFloat b)) false 0

/-- `operator*` from `Float8_e4m3fnuz-inl.h`. -/
def mul (a b : Nat) : Nat :=
  ofFloat (Fnuz.f32mul (toFloat a) (toFloat b)) false 0

/-- `operator/` from `Float8_e4m3fnuz-inl.h`. -/
def div (a b : Nat) : Nat :=
  ofFloat (Fnuz.f32div (toFloat a) (toFloat b)) false 0

end Float8_e4m3fnuz

namespace numeric_limits_Float8_e4m3fnuz

/-- `std::numeric_limits<c10::Float8_e4m3fnuz>::min()` from
`Float8_e4m3fnuz-inl.h`: code `0x08`. -/
def nl_min : Nat := 0x08

/-- `std::numeric_limits<c10::Float8_e4m3fnuz>::lowest()`: code `0xFF`. -/
def nl_lowest : Nat := 0xFF

/-- `std::numeric_limits<c10::Float8_e4m3fnuz>::max()`: code `0x7F`. -/
def nl_max : Nat := 0x7F

/-- `std::numeric_limits<c10::Float8_e4m3fnuz>::epsilon()`: code `0x28`. -/
def nl_epsilon : Nat := 0x28

/-- `std::numeric_limits<c10::Float8_e4m3fnuz>::round_error()`: code `0x38`. -/
def nl_round_error : Nat := 0x38

/-- `std::numeric_limits<c10::Float8_e4m3fnuz>::quiet_NaN()`: code `0x80`. -/
def nl_quiet_NaN : Nat := 0x80

/-- `std::numeric_limits<c10::Float8_e4m3fnuz>::denorm_min()`: code `0x01`. -/
def nl_denorm_min : Nat := 0x01

end numeric_limits_Float8_e4m3fnuz


namespace Fnuz

/-- The spec's arithmetic-wrapper contract (section 8, "Arithmetic wrapper
consistency"): decode both operands to float32, apply the float32 operation at
32-bit precision, and re-encode the result with standard rounding. -/
def specWrapperOp (cfg : FormatConfig) (op : Nat → Nat → Nat) (a b : Nat) : Nat :=
  encode cfg (op (decode cfg a) (decode cfg b)) false 0

end Fnuz

/-! ## Helper lemmas -/

namespace Fnuz

theorem two_q_ne_zero : (2 : ℚ) ≠ 0 := by norm_num

theorem floorLog2Fuel_bracket (fuel : Nat) :
    ∀ n, 1 ≤ n → n ≤ fuel →
      2 ^ floorLog2Fuel fuel n ≤ n ∧ n < 2 ^ (floorLog2Fuel fuel n + 1) := by
  induction fuel with
  | zero => intro n h1 h2; omega
  | succ fuel ih =>
    intro n h1 h2
    rw [floorLog2Fuel]
    by_cases h : n < 2
    · rw [if_pos h]
      constructor
      · simpa using h1
      · simpa using h
    · rw [if_neg h]
      have h2' : n / 2 ≤ fuel := by omega
      have h1' : 1 ≤ n / 2 := by omega
      obtain ⟨a, b⟩ := ih (n / 2) h1' h2'
      constructor
      · rw [pow_succ]
        have := Nat.mul_le_mul_right 2 a
        omega
      · rw [pow_succ]
        set A := 2 ^ (floorLog2Fuel fuel (n / 2) + 1) with hA
        omega

theorem floorLog2_bracket (n : Nat) (h : 1 ≤ n) :
    2 ^ floorLog2 n ≤ n ∧ n < 2 ^ (floorLog2 n + 1) :=
  floorLog2Fuel_bracket n n h le_rfl

theorem floorLog2_lt_of_lt_pow {n b : Nat} (h1 : 1 ≤ n) (h2 : n < 2 ^ b) :
    floorLog2 n < b := by
  by_contra hc
  have hb : b ≤ floorLog2 n := by omega
  have := (floorLog2_bracket n h1).1
  have : 2 ^ b ≤ n := le_trans (Nat.pow_le_pow_right (by norm_num) hb) this
  omega

end Fnuz

namespace Fnuz

theorem zpow_add_two (a b : ℤ) : (2 : ℚ) ^ a * (2 : ℚ) ^ b = (2 : ℚ) ^ (a + b) :=
  (zpow_add₀ two_q_ne_zero a b).symm



theorem fval_fields (s : Bool) (e fr : Nat) (he : e ≠ 0) :
    fval ⟨s, e, fr⟩ =
      (if s then (-1 : ℚ) else 1) * ((2 ^ 23 + fr : ℕ) : ℚ) * (2 : ℚ) ^ ((e : ℤ) - 127 - 23) := by
  unfold fval sig24 unbExp
  simp only [if_neg he]

theorem dyadic_sub_core (M L mb : ℕ) (B : ℤ) (hL : L ≤ 23) :
    ((M * 2 ^ (23 - L) : ℕ) : ℚ) * (2 : ℚ) ^ (1 - B - mb + L + 127 - 127 - 23) =
      (M : ℚ) / 2 ^ mb * (2 : ℚ) ^ (1 - B) := by
  push_cast
  rw [← zpow_natCast (2 : ℚ) (23 - L), ← zpow_natCast (2 : ℚ) mb,
    Nat.cast_sub hL, div_eq_mul_inv, ← zpow_neg, mul_assoc, mul_assoc,
    zpow_add_two, zpow_add_two]
  congr 1
  push_cast
  ring

theorem dyadic_normal_core (M mb : ℕ) (E : ℤ) (hmb : mb ≤ 23) :
    ((2 ^ 23 + M * 2 ^ (23 - mb) : ℕ) : ℚ) * (2 : ℚ) ^ (E - 23) =
      (1 + (M : ℚ) / 2 ^ mb) * (2 : ℚ) ^ E := by
  have hsplit : (2 : ℚ) ^ (23 - mb) * (2 : ℚ) ^ mb = 2 ^ (23 : ℕ) := by
    rw [← pow_add]
    congr 1
    omega
  have h2 : ((2 : ℚ)) ^ mb ≠ 0 := by positivity
  have key : ((2 ^ 23 + M * 2 ^ (23 - mb) : ℕ) : ℚ) = (1 + (M : ℚ) / 2 ^ mb) * (2 : ℚ) ^ (23 : ℕ) := by
    push_cast
    field_simp
    linear_combination (M : ℚ) * hsplit
  rw [key, mul_assoc, ← zpow_natCast (2 : ℚ) 23, zpow_add_two]
  have hE : ((23 : ℕ) : ℤ) + (E - 23) = E := by omega
  rw [hE]

/-- The decoder realizes the spec's value formula: for every non-sentinel
code, the decoded float32 has exactly the prescribed rational value. -/
theorem fval_decodeDF (cfg : FormatConfig) (hmb : cfg.mantissa_bits ≤ 22)
    (hbmb : cfg.bias + cfg.mantissa_bits ≤ 127) (c : Nat) (hc : c ≠ 128) :
    fval (decodeDF cfg c) = specDecodeVal cfg c := by
  have hmbpos : 0 < (2 : Nat) ^ cfg.mantissa_bits := by positivity
  have hebpos : 0 < (2 : Nat) ^ cfg.exponent_bits := by positivity
  have hmlt : c % 2 ^ cfg.mantissa_bits < 2 ^ cfg.mantissa_bits := Nat.mod_lt _ hmbpos
  unfold decodeDF specDecodeVal
  rw [if_neg hc]
  by_cases hf : c / 2 ^ cfg.mantissa_bits % 2 ^ cfg.exponent_bits = 0
  · rw [if_pos hf, if_pos hf]
    by_cases hm : c % 2 ^ cfg.mantissa_bits = 0
    · rw [if_pos hm, hm]
      simp [fval, sig24, unbExp]
    · rw [if_neg hm]
      have hM1 : 1 ≤ c % 2 ^ cfg.mantissa_bits := Nat.pos_of_ne_zero hm
      obtain ⟨hL1, hL2⟩ := floorLog2_bracket _ hM1
      have hLmb : floorLog2 (c % 2 ^ cfg.mantissa_bits) < cfg.mantissa_bits :=
        floorLog2_lt_of_lt_pow hM1 hmlt
      have hL23 : floorLog2 (c % 2 ^ cfg.mantissa_bits) ≤ 23 := by omega
      have hEnn : (0 : ℤ) ≤ 1 - cfg.bias - cfg.mantissa_bits +
          floorLog2 (c % 2 ^ cfg.mantissa_bits) + 127 := by omega
      have hEne : (1 - cfg.bias - cfg.mantissa_bits +
          floorLog2 (c % 2 ^ cfg.mantissa_bits) + 127).toNat ≠ 0 := by omega
      rw [fval_fields _ _ _ hEne]
      rw [Int.toNat_of_nonneg hEnn]
      have hsig : 2 ^ 23 ≤ c % 2 ^ cfg.mantissa_bits *
          2 ^ (23 - floorLog2 (c % 2 ^ cfg.mantissa_bits)) := by
        calc 2 ^ 23 = 2 ^ floorLog2 (c % 2 ^ cfg.mantissa_bits) *
              2 ^ (23 - floorLog2 (c % 2 ^ cfg.mantissa_bits)) := by
              rw [← pow_add]
              congr 1
              omega
        _ ≤ _ := Nat.mul_le_mul_right _ hL1
      have hfr : 2 ^ 23 + (c % 2 ^ cfg.mantissa_bits *
            2 ^ (23 - floorLog2 (c % 2 ^ cfg.mantissa_bits)) - 2 ^ 23) =
          c % 2 ^ cfg.mantissa_bits * 2 ^ (23 - floorLog2 (c % 2 ^ cfg.mantissa_bits)) := by
        omega
      rw [hfr]
      simp only [decide_eq_true_eq]
      rw [mul_assoc, dyadic_sub_core _ _ _ _ hL23]
  · rw [if_neg hf, if_neg hf]
    have hF1 : 1 ≤ c / 2 ^ cfg.mantissa_bits % 2 ^ cfg.exponent_bits := Nat.pos_of_ne_zero hf
    have hEnn : (0 : ℤ) ≤ ((c / 2 ^ cfg.mantissa_bits % 2 ^ cfg.exponent_bits : ℕ) : ℤ) -
        cfg.bias + 127 := by omega
    have hEne : (((c / 2 ^ cfg.mantissa_bits % 2 ^ cfg.exponent_bits : ℕ) : ℤ) -
        cfg.bias + 127).toNat ≠ 0 := by omega
    rw [fval_fields _ _ _ hEne]
    rw [Int.toNat_of_nonneg hEnn]
    have hexp : ((c / 2 ^ cfg.mantissa_bits % 2 ^ cfg.exponent_bits : ℕ) : ℤ) -
        cfg.bias + 127 - 127 - 23 =
        ((c / 2 ^ cfg.mantissa_bits % 2 ^ cfg.exponent_bits : ℕ) : ℤ) - cfg.bias - 23 := by
      omega
    rw [hexp]
    simp only [decide_eq_true_eq]
    rw [mul_assoc, dyadic_normal_core _ _ _ (by omega)]


theorem decompose_compose (d : DecomposedFloat) (hd : d.valid) : decompose (compose d) = d := by
  obtain ⟨s, e, fr⟩ := d
  obtain ⟨h1, h2⟩ := hd
  simp only at h1 h2
  unfold decompose compose
  cases s
  · simp only [Bool.false_eq_true, if_false, DecomposedFloat.mk.injEq]
    refine ⟨?_, ?_, ?_⟩
    · simp only [decide_eq_false_iff_not]
      omega
    · omega
    · omega
  · simp only [if_true, DecomposedFloat.mk.injEq]
    refine ⟨?_, ?_, ?_⟩
    · simp only [decide_eq_true_eq]
      omega
    · omega
    · omega

theorem compose_lt (d : DecomposedFloat) (hd : d.valid) : compose d < 2 ^ 32 := by
  obtain ⟨s, e, fr⟩ := d
  obtain ⟨h1, h2⟩ := hd
  simp only at h1 h2
  unfold compose
  cases s <;> simp only [if_true, if_false, Bool.false_eq_true] <;> omega

/-- Every decoded code is a well-formed float32 bit pattern. -/
theorem decodeDF_valid (cfg : FormatConfig) (hmb : cfg.mantissa_bits ≤ 22)
    (hbias0 : 0 ≤ cfg.bias) (hbmb : cfg.bias + cfg.mantissa_bits ≤ 127)
    (heb : cfg.exponent_bits ≤ 7) (c : Nat) : (decodeDF cfg c).valid := by
  have hmbpos : 0 < (2 : Nat) ^ cfg.mantissa_bits := by positivity
  have hebpos : 0 < (2 : Nat) ^ cfg.exponent_bits := by positivity
  have hmlt : c % 2 ^ cfg.mantissa_bits < 2 ^ cfg.mantissa_bits := Nat.mod_lt _ hmbpos
  have hFlt : c / 2 ^ cfg.mantissa_bits % 2 ^ cfg.exponent_bits < 2 ^ cfg.exponent_bits :=
    Nat.mod_lt _ hebpos
  have hebb : (2 : Nat) ^ cfg.exponent_bits ≤ 2 ^ 7 := Nat.pow_le_pow_right (by norm_num) heb
  unfold decodeDF
  by_cases hc : c = 128
  · rw [if_pos hc]
    constructor <;> norm_num
  rw [if_neg hc]
  by_cases hf : c / 2 ^ cfg.mantissa_bits % 2 ^ cfg.exponent_bits = 0
  · rw [if_pos hf]
    by_cases hm : c % 2 ^ cfg.mantissa_bits = 0
    · rw [if_pos hm]
      constructor <;> norm_num
    · rw [if_neg hm]
      have hM1 : 1 ≤ c % 2 ^ cfg.mantissa_bits := Nat.pos_of_ne_zero hm
      obtain ⟨hL1, hL2⟩ := floorLog2_bracket _ hM1
      have hLmb : floorLog2 (c % 2 ^ cfg.mantissa_bits) < cfg.mantissa_bits :=
        floorLog2_lt_of_lt_pow hM1 hmlt
      constructor
      · simp only
        omega
      · simp only
        have hup : c % 2 ^ cfg.mantissa_bits *
            2 ^ (23 - floorLog2 (c % 2 ^ cfg.mantissa_bits)) < 2 ^ 24 := by
          calc c % 2 ^ cfg.mantissa_bits * 2 ^ (23 - floorLog2 (c % 2 ^ cfg.mantissa_bits)) <
              2 ^ (floorLog2 (c % 2 ^ cfg.mantissa_bits) + 1) *
                2 ^ (23 - floorLog2 (c % 2 ^ cfg.mantissa_bits)) := by
                exact Nat.mul_lt_mul_of_lt_of_le hL2 le_rfl (by positivity)
          _ = 2 ^ 24 := by
              rw [← pow_add]
              congr 1
              omega
        omega
  · rw [if_neg hf]
    constructor
    · simp only
      omega
    · simp only
      have hup : c % 2 ^ cfg.mantissa_bits * 2 ^ (23 - cfg.mantissa_bits) < 2 ^ 23 := by
        calc c % 2 ^ cfg.mantissa_bits * 2 ^ (23 - cfg.mantissa_bits) <
            2 ^ cfg.mantissa_bits * 2 ^ (23 - cfg.mantissa_bits) :=
              Nat.mul_lt_mul_of_lt_of_le hmlt le_rfl (by positivity)
        _ = 2 ^ 23 := by
            rw [← pow_add]
            congr 1
            omega
      omega



/-- Instance form of `fval_decodeDF` for the e4m3fnuz format, at the word level. -/
theorem val32_decode_e4m3 (n : Nat) (hn : n ≠ 128) :
    val32 (decode e4m3fnuzCfg n) = specDecodeVal e4m3fnuzCfg n := by
  unfold val32 decode
  rw [decompose_compose _ (decodeDF_valid _ (by norm_num [e4m3fnuzCfg])
    (by norm_num [e4m3fnuzCfg]) (by norm_num [e4m3fnuzCfg]) (by norm_num [e4m3fnuzCfg]) n)]
  exact fval_decodeDF _ (by norm_num [e4m3fnuzCfg]) (by norm_num [e4m3fnuzCfg]) n hn

/-- Instance form of `fval_decodeDF` for the e5m2fnuz format, at the word level. -/
theorem val32_decode_e5m2 (n : Nat) (hn : n ≠ 128) :
    val32 (decode e5m2fnuzCfg n) = specDecodeVal e5m2fnuzCfg n := by
  unfold val32 decode
  rw [decompose_compose _ (decodeDF_valid _ (by norm_num [e5m2fnuzCfg])
    (by norm_num [e5m2fnuzCfg]) (by norm_num [e5m2fnuzCfg]) (by norm_num [e5m2fnuzCfg]) n)]
  exact fval_decodeDF _ (by norm_num [e5m2fnuzCfg]) (by norm_num [e5m2fnuzCfg]) n hn

theorem abs_fval (d : DecomposedFloat) :
    |fval d| = (sig24 d : ℚ) * (2 : ℚ) ^ (unbExp d - 23) := by
  have h1 : |(sig24 d : ℚ)| = (sig24 d : ℚ) := abs_of_nonneg (by positivity)
  have h2 : |(2 : ℚ) ^ (unbExp d - 23)| = (2 : ℚ) ^ (unbExp d - 23) :=
    abs_of_pos (by positivity)
  cases hs : d.sign <;> simp [fval, hs, abs_mul, h1, h2]

theorem nat_dyadic_lt_iff (x y : ℕ) (u v : ℤ) :
    x * 2 ^ (u - v).toNat < y * 2 ^ (v - u).toNat ↔
      (x : ℚ) * (2 : ℚ) ^ u < (y : ℚ) * (2 : ℚ) ^ v := by
  rcases le_total u v with h | h
  · have h1 : (u - v).toNat = 0 := by omega
    have h2 : (((v - u).toNat : ℕ) : ℤ) = v - u := by omega
    rw [h1, pow_zero, mul_one]
    have hsplit : (2 : ℚ) ^ v = (2 : ℚ) ^ (v - u) * (2 : ℚ) ^ u := by
      rw [zpow_add_two]
      congr 1
      ring
    rw [hsplit, ← mul_assoc]
    rw [mul_lt_mul_right (a := (2 : ℚ) ^ u) (by positivity)]
    constructor
    · intro hlt
      calc (x : ℚ) < ((y * 2 ^ (v - u).toNat : ℕ) : ℚ) := by exact_mod_cast hlt
      _ = (y : ℚ) * (2 : ℚ) ^ (v - u) := by
          push_cast
          rw [← zpow_natCast (2 : ℚ) ((v - u).toNat), h2]
    · intro hlt
      have : ((x : ℕ) : ℚ) < ((y * 2 ^ (v - u).toNat : ℕ) : ℚ) := by
        calc ((x : ℕ) : ℚ) < (y : ℚ) * (2 : ℚ) ^ (v - u) := hlt
        _ = ((y * 2 ^ (v - u).toNat : ℕ) : ℚ) := by
            push_cast
            rw [← zpow_natCast (2 : ℚ) ((v - u).toNat), h2]
      exact_mod_cast this
  · have h1 : (v - u).toNat = 0 := by omega
    have h2 : (((u - v).toNat : ℕ) : ℤ) = u - v := by omega
    rw [h1, pow_zero, mul_one]
    have hsplit : (2 : ℚ) ^ u = (2 : ℚ) ^ (u - v) * (2 : ℚ) ^ v := by
      rw [zpow_add_two]
      congr 1
      ring
    rw [hsplit, ← mul_assoc]
    rw [mul_lt_mul_right (a := (2 : ℚ) ^ v) (by positivity)]
    have hcast : (x : ℚ) * (2 : ℚ) ^ (u - v) = ((x * 2 ^ (u - v).toNat : ℕ) : ℚ) := by
      push_cast
      rw [← zpow_natCast (2 : ℚ) ((u - v).toNat), h2]
    constructor
    · intro hlt
      rw [hcast]
      exact_mod_cast hlt
    · intro hlt
      rw [hcast] at hlt
      exact_mod_cast hlt

theorem magGT_iff (a b : DecomposedFloat) :
    magGT a b = true ↔ |fval b| < |fval a| := by
  unfold magGT
  rw [decide_eq_true_eq, abs_fval, abs_fval]
  have hoff : ∀ d : DecomposedFloat, (2 : ℚ) ^ (unbExp d - 23) =
      (2 : ℚ) ^ unbExp d * (2 : ℚ) ^ (-23 : ℤ) := by
    intro d
    rw [zpow_add_two]
    congr 1
  rw [hoff, hoff, ← mul_assoc, ← mul_assoc,
    mul_lt_mul_right (a := (2 : ℚ) ^ (-23 : ℤ)) (by positivity)]
  exact nat_dyadic_lt_iff (sig24 b) (sig24 a) (unbExp b) (unbExp a)

theorem fval_isInf (d : DecomposedFloat) (h : d.isInf = true) :
    |fval d| = (2 : ℚ) ^ (128 : ℤ) := by
  unfold DecomposedFloat.isInf at h
  simp only [Bool.and_eq_true, beq_iff_eq] at h
  obtain ⟨h1, h2⟩ := h
  rw [abs_fval]
  unfold sig24 unbExp
  rw [h1, h2]
  norm_num

theorem clip_eq_self (cfg : FormatConfig) (d : DecomposedFloat)
    (hinf : d.isInf = false) (hle : |fval d| ≤ |fval (cfg.maxBoundDF false)|) :
    clip cfg d = d := by
  unfold clip
  have hng : magGT d (cfg.maxBoundDF false) = false := by
    rw [← Bool.not_eq_true, magGT_iff]
    exact not_lt.mpr hle
  rw [hinf, hng]
  simp

theorem clip_eq_bound (cfg : FormatConfig) (d : DecomposedFloat)
    (h : d.isInf = true ∨ |fval (cfg.maxBoundDF false)| < |fval d|) :
    clip cfg d = cfg.maxBoundDF d.sign := by
  unfold clip
  rcases h with h | h
  · rw [h]
    simp
  · have hg : magGT d (cfg.maxBoundDF false) = true := (magGT_iff _ _).mpr h
    rw [hg, Bool.or_true]
    simp

theorem sig24_lt (d : DecomposedFloat) (hd : d.valid) : sig24 d < 2 ^ 24 := by
  obtain ⟨h1, h2⟩ := hd
  unfold sig24
  split <;> omega

theorem decompose_valid (w : Nat) : (decompose w).valid := by
  refine ⟨Nat.mod_lt _ (by norm_num), Nat.mod_lt _ (by norm_num)⟩

theorem maxBoundDF_valid (cfg : FormatConfig) (heb : cfg.exponent_bits ≤ 7)
    (hbias : 0 ≤ cfg.bias) (hmb : cfg.mantissa_bits ≤ 23) (s : Bool) :
    (cfg.maxBoundDF s).valid := by
  have hpe : (2 : ℤ) ^ cfg.exponent_bits ≤ 128 := by
    calc (2 : ℤ) ^ cfg.exponent_bits ≤ 2 ^ 7 := pow_le_pow_right₀ (by norm_num) heb
    _ = 128 := by norm_num
  have hsplit : (2 : ℕ) ^ cfg.mantissa_bits * 2 ^ (23 - cfg.mantissa_bits) = 2 ^ 23 := by
    rw [← pow_add]
    congr 1
    omega
  have hpos : 0 < (2 : ℕ) ^ (23 - cfg.mantissa_bits) := by positivity
  have hm1 : 1 ≤ (2 : ℕ) ^ cfg.mantissa_bits := Nat.one_le_two_pow
  have hsub : (2 ^ cfg.mantissa_bits - 1) * 2 ^ (23 - cfg.mantissa_bits) =
      2 ^ cfg.mantissa_bits * 2 ^ (23 - cfg.mantissa_bits) - 2 ^ (23 - cfg.mantissa_bits) :=
    Nat.sub_one_mul _ _
  constructor
  · show (cfg.maxExp + 127).toNat < 2 ^ 8
    unfold FormatConfig.maxExp
    omega
  · show (2 ^ cfg.mantissa_bits - 1) * 2 ^ (23 - cfg.mantissa_bits) < 2 ^ 23
    omega

theorem clip_valid (cfg : FormatConfig) (heb : cfg.exponent_bits ≤ 7)
    (hbias : 0 ≤ cfg.bias) (hmb : cfg.mantissa_bits ≤ 23) (d : DecomposedFloat)
    (hd : d.valid) : (clip cfg d).valid := by
  unfold clip
  split
  · exact maxBoundDF_valid cfg heb hbias hmb _
  · exact hd

theorem roundsUp_r_zero (st : Bool) (rng D k : Nat) : roundsUp st rng D k 0 = false := by
  unfold roundsUp
  have hpos : 0 < (2 : ℕ) ^ (D - 1) := by positivity
  cases st <;> simp <;> omega

theorem roundSig_zero (st : Bool) (rng D : Nat) : roundSig st rng D 0 = 0 := by
  unfold roundSig
  rw [Nat.zero_div, Nat.zero_mod, roundsUp_r_zero]
  simp

theorem roundSig_le (st : Bool) (rng D m0 : Nat) :
    roundSig st rng D m0 ≤ m0 / 2 ^ D + 1 := by
  unfold roundSig
  split <;> omega

theorem roundSig_ge (st : Bool) (rng D m0 : Nat) :
    m0 / 2 ^ D ≤ roundSig st rng D m0 := by
  unfold roundSig
  split <;> omega

theorem roundSig_le_pow (st : Bool) (rng : Nat) (D m0 mb : Nat) (hm0 : m0 < 2 ^ 24)
    (hD : 24 - mb ≤ D) (hmb : mb ≤ 24) : roundSig st rng D m0 ≤ 2 ^ mb := by
  have h1 : m0 / 2 ^ D < 2 ^ mb := by
    apply Nat.div_lt_of_lt_mul
    calc m0 < 2 ^ 24 := hm0
    _ = 2 ^ mb * 2 ^ (24 - mb) := by
        rw [← pow_add]
        congr 1
        omega
    _ ≤ 2 ^ mb * 2 ^ D :=
        Nat.mul_le_mul_left _ (Nat.pow_le_pow_right (by norm_num) hD)
    _ = 2 ^ D * 2 ^ mb := Nat.mul_comm _ _
  have h2 := roundSig_le st rng D m0
  omega

theorem roundSig_le_pow_succ (st : Bool) (rng : Nat) (mb m0 : Nat) (hm0 : m0 < 2 ^ 24)
    (hmb : mb ≤ 23) : roundSig st rng (23 - mb) m0 ≤ 2 ^ (mb + 1) := by
  have h1 : m0 / 2 ^ (23 - mb) < 2 ^ (mb + 1) := by
    apply Nat.div_lt_of_lt_mul
    calc m0 < 2 ^ 24 := hm0
    _ = 2 ^ (mb + 1) * 2 ^ (23 - mb) := by
        rw [← pow_add]
        congr 1
        omega
    _ = 2 ^ (23 - mb) * 2 ^ (mb + 1) := Nat.mul_comm _ _
  have h2 := roundSig_le st rng (23 - mb) m0
  omega

theorem roundSig_of_exact (st : Bool) (rng D m0 : Nat) (h : m0 % 2 ^ D = 0) :
    roundSig st rng D m0 = m0 / 2 ^ D := by
  unfold roundSig
  rw [h, roundsUp_r_zero]
  simp

theorem maxFiniteCode_eq (cfg : FormatConfig)
    (hebmb : cfg.exponent_bits + cfg.mantissa_bits = 7) : cfg.maxFiniteCode = 127 := by
  unfold FormatConfig.maxFiniteCode
  have h2 : 1 ≤ (2 : ℕ) ^ cfg.mantissa_bits := Nat.one_le_two_pow
  have hd : (2 ^ cfg.exponent_bits - 1) * 2 ^ cfg.mantissa_bits =
      2 ^ cfg.exponent_bits * 2 ^ cfg.mantissa_bits - 2 ^ cfg.mantissa_bits :=
    Nat.sub_one_mul _ _
  rw [hd, ← pow_add, hebmb]
  have hm128 : (2 : ℕ) ^ cfg.mantissa_bits ≤ 128 := by
    calc (2 : ℕ) ^ cfg.mantissa_bits ≤ 2 ^ 7 := Nat.pow_le_pow_right (by norm_num) (by omega)
    _ = 128 := by norm_num
  norm_num
  omega

theorem encStore_sub_lo (cfg : FormatConfig) (t : ℤ) (k1 : Nat) (ht : t ≤ 0)
    (hk : k1 < 2 ^ cfg.mantissa_bits) : encStore cfg t k1 = (0, k1) := by
  unfold encStore
  rw [if_pos ht, if_neg (by omega)]

theorem encStore_sub_hi (cfg : FormatConfig) (t : ℤ) (k1 : Nat) (ht : t ≤ 0)
    (hk : 2 ^ cfg.mantissa_bits ≤ k1) : encStore cfg t k1 = (1, k1 - 2 ^ cfg.mantissa_bits) := by
  unfold encStore
  rw [if_pos ht, if_pos hk]

theorem encStore_norm_lo (cfg : FormatConfig) (t : ℤ) (k1 : Nat) (ht : 0 < t)
    (hk : k1 < 2 ^ (cfg.mantissa_bits + 1)) :
    encStore cfg t k1 = (t, k1 - 2 ^ cfg.mantissa_bits) := by
  unfold encStore
  rw [if_neg (by omega), if_neg (by omega)]

theorem encStore_norm_hi (cfg : FormatConfig) (t : ℤ) (k1 : Nat) (ht : 0 < t)
    (hk : 2 ^ (cfg.mantissa_bits + 1) ≤ k1) : encStore cfg t k1 = (t + 1, 0) := by
  unfold encStore
  rw [if_neg (by omega), if_pos hk]

/-- `packCode` never yields the sentinel `0x80` when the exponent field is
nonnegative and the mantissa field is within the format width. -/
theorem packCode_ne_sentinel (cfg : FormatConfig) (hmb1 : 1 ≤ cfg.mantissa_bits)
    (heb1 : 1 ≤ cfg.exponent_bits)
    (hebmb : cfg.exponent_bits + cfg.mantissa_bits = 7) (s : Bool) (f : ℤ) (m : Nat)
    (hf0 : 0 ≤ f) (hfpos : f = 0 → 1 ≤ m) (hm : m < 2 ^ cfg.mantissa_bits) :
    packCode cfg s f m ≠ 128 := by
  have h128 : (2 : ℕ) ^ cfg.exponent_bits * 2 ^ cfg.mantissa_bits = 128 := by
    rw [← pow_add, hebmb]
    norm_num
  have hm64 : (2 : ℕ) ^ cfg.mantissa_bits ≤ 64 := by
    calc (2 : ℕ) ^ cfg.mantissa_bits ≤ 2 ^ 6 := Nat.pow_le_pow_right (by norm_num) (by omega)
    _ = 64 := by norm_num
  have hm2 : 1 ≤ (2 : ℕ) ^ cfg.mantissa_bits := Nat.one_le_two_pow
  have he2 : 1 ≤ (2 : ℕ) ^ cfg.exponent_bits := Nat.one_le_two_pow
  unfold packCode
  split
  · rw [maxFiniteCode_eq cfg hebmb]
    split <;> omega
  · rename_i hsat
    split
    · omega
    · rename_i hnz
      have hftoNat : (f.toNat : ℤ) = f := Int.toNat_of_nonneg hf0
      have hcast : (((2 : ℕ) ^ cfg.exponent_bits : ℕ) : ℤ) = (2 : ℤ) ^ cfg.exponent_bits := by
        push_cast
        ring
      have hfn : f.toNat ≤ 2 ^ cfg.exponent_bits - 1 := by omega
      have hA : f.toNat * 2 ^ cfg.mantissa_bits ≤
          (2 ^ cfg.exponent_bits - 1) * 2 ^ cfg.mantissa_bits :=
        Nat.mul_le_mul_right _ hfn
      have hB : (2 ^ cfg.exponent_bits - 1) * 2 ^ cfg.mantissa_bits =
          2 ^ cfg.exponent_bits * 2 ^ cfg.mantissa_bits - 2 ^ cfg.mantissa_bits :=
        Nat.sub_one_mul _ _
      have hApos : f.toNat = 0 ∨ 2 ^ cfg.mantissa_bits ≤ f.toNat * 2 ^ cfg.mantissa_bits := by
        rcases Nat.eq_zero_or_pos f.toNat with h | h
        · exact Or.inl h
        · exact Or.inr (Nat.le_mul_of_pos_left _ h)
      have hmz : f = 0 → 1 ≤ m := hfpos
      rw [hB, h128] at hA
      set A := f.toNat * 2 ^ cfg.mantissa_bits with hAdef
      split <;> omega

/-- The encoder never emits the sign-only pattern `0x80` on a non-NaN input:
zero-magnitude results are canonicalized to `0x00` and every other result has
a nonzero magnitude field. -/
theorem encodeDF_ne_sentinel (cfg : FormatConfig) (hmb1 : 1 ≤ cfg.mantissa_bits)
    (hmb : cfg.mantissa_bits ≤ 6) (hebmb : cfg.exponent_bits + cfg.mantissa_bits = 7)
    (hbias : 0 ≤ cfg.bias) (d : DecomposedFloat) (hval : d.valid)
    (hnan : d.isNan = false) (st : Bool) (rng : Nat) :
    encodeDF cfg d st rng ≠ 128 := by
  have hm2 : 1 ≤ (2 : ℕ) ^ cfg.mantissa_bits := Nat.one_le_two_pow
  have hd1 : (clip cfg d).valid := clip_valid cfg (by omega) hbias (by omega) d hval
  have hm0 : sig24 (clip cfg d) < 2 ^ 24 := sig24_lt _ hd1
  unfold encodeDF
  simp only [hnan, Bool.false_eq_true, if_false]
  set t : ℤ := unbExp (clip cfg d) + cfg.bias with ht
  set k1 : Nat := roundSig st rng (encShift cfg t) (sig24 (clip cfg d)) with hk1
  rcases le_or_lt t 0 with htle | htgt
  · have hkb : k1 ≤ 2 ^ cfg.mantissa_bits := by
      rw [hk1]
      apply roundSig_le_pow st rng _ _ _ hm0 _ (by omega)
      unfold encShift
      omega
    rcases Nat.lt_or_ge k1 (2 ^ cfg.mantissa_bits) with hk | hk
    · rw [encStore_sub_lo cfg t k1 htle hk]
      show packCode cfg (clip cfg d).sign 0 k1 ≠ 128
      rcases Nat.eq_zero_or_pos k1 with hz | hz
      · rw [hz]
        unfold packCode
        have hpe : (0 : ℤ) < 2 ^ cfg.exponent_bits := by positivity
        rw [if_neg (by omega), if_pos ⟨rfl, rfl⟩]
        omega
      · exact packCode_ne_sentinel cfg hmb1 (by omega) hebmb _ _ _ le_rfl (fun _ => hz) hk
    · rw [encStore_sub_hi cfg t k1 htle hk]
      show packCode cfg (clip cfg d).sign 1 (k1 - 2 ^ cfg.mantissa_bits) ≠ 128
      exact packCode_ne_sentinel cfg hmb1 (by omega) hebmb _ _ _ (by omega)
        (by omega) (by omega)
  · have hkb : k1 ≤ 2 ^ (cfg.mantissa_bits + 1) := by
      rw [hk1]
      have hsh : encShift cfg t = 23 - cfg.mantissa_bits := by
        unfold encShift
        omega
      rw [hsh]
      exact roundSig_le_pow_succ st rng _ _ hm0 (by omega)
    have hpow2 : (2 : ℕ) ^ (cfg.mantissa_bits + 1) = 2 ^ cfg.mantissa_bits * 2 := pow_succ 2 _
    rcases Nat.lt_or_ge k1 (2 ^ (cfg.mantissa_bits + 1)) with hk | hk
    · rw [encStore_norm_lo cfg t k1 htgt hk]
      show packCode cfg (clip cfg d).sign t (k1 - 2 ^ cfg.mantissa_bits) ≠ 128
      exact packCode_ne_sentinel cfg hmb1 (by omega) hebmb _ _ _ (by omega) (by omega) (by omega)
    · rw [encStore_norm_hi cfg t k1 htgt hk]
      show packCode cfg (clip cfg d).sign (t + 1) 0 ≠ 128
      exact packCode_ne_sentinel cfg hmb1 (by omega) hebmb _ _ _ (by omega) (by omega) (by omega)

/-- A zero-significand, non-NaN input encodes to `0x00` whatever the sign,
rounding mode and random bits: negative zero is canonicalized away. -/
theorem encodeDF_of_zero (cfg : FormatConfig) (hbias : cfg.bias ≤ 126)
    (d : DecomposedFloat) (hnan : d.isNan = false) (hsig : sig24 d = 0)
    (st : Bool) (rng : Nat) : encodeDF cfg d st rng = 0 := by
  have hex : d.ex = 0 := by
    unfold sig24 at hsig
    by_contra hc
    rw [if_neg hc] at hsig
    omega
  have hinf : d.isInf = false := by
    unfold DecomposedFloat.isInf
    rw [hex]
    simp
  have hmg : magGT d (cfg.maxBoundDF false) = false := by
    unfold magGT
    rw [hsig]
    simp
  have hclip : clip cfg d = d := by
    unfold clip
    rw [hinf, hmg]
    simp
  have hub : unbExp d = -126 := by
    unfold unbExp
    rw [if_pos hex]
    norm_num
  unfold encodeDF
  simp only [hnan, Bool.false_eq_true, if_false]
  rw [hclip, hsig, hub, roundSig_zero]
  rw [encStore_sub_lo cfg _ 0 (by omega) (by positivity)]
  show packCode cfg d.sign 0 0 = 0
  unfold packCode
  have hpe : (0 : ℤ) < 2 ^ cfg.exponent_bits := by positivity
  rw [if_neg (by omega), if_pos ⟨rfl, rfl⟩]
/-- The e4m3fnuz clip bound has magnitude exactly 240. -/
theorem maxBound_abs_e4m3 : |fval (e4m3fnuzCfg.maxBoundDF false)| = 240 := by
  rw [abs_fval]
  norm_num [FormatConfig.maxBoundDF, FormatConfig.maxExp, sig24, unbExp, e4m3fnuzCfg,
    show (134 : ℤ).toNat = 134 from rfl]

/-- The e5m2fnuz clip bound has magnitude exactly 57344. -/
theorem maxBound_abs_e5m2 : |fval (e5m2fnuzCfg.maxBoundDF false)| = 57344 := by
  rw [abs_fval]
  norm_num [FormatConfig.maxBoundDF, FormatConfig.maxExp, sig24, unbExp, e5m2fnuzCfg,
    show (142 : ℤ).toNat = 142 from rfl]

set_option maxRecDepth 8000 in
/-- An over-range or infinite e4m3fnuz input encodes, with standard rounding,
to the maximum finite code of its sign. -/
theorem encode_saturates_e4m3 (w rng : Nat) (hnan : (decompose w).isNan = false)
    (h : (decompose w).isInf = true ∨ 240 < |val32 w|) :
    encode e4m3fnuzCfg w false rng =
      (if (decompose w).sign then 128 else 0) + 127 := by
  have hclip : clip e4m3fnuzCfg (decompose w) =
      e4m3fnuzCfg.maxBoundDF (decompose w).sign := by
    apply clip_eq_bound
    rcases h with h | h
    · exact Or.inl h
    · refine Or.inr ?_
      rw [maxBound_abs_e4m3]
      exact h
  unfold encode encodeDF
  simp only [hnan, Bool.false_eq_true, if_false]
  rw [hclip]
  cases hs : (decompose w).sign <;> rfl

set_option maxRecDepth 8000 in
/-- An over-range or infinite e5m2fnuz input encodes, with standard rounding,
to the maximum finite code of its sign. -/
theorem encode_saturates_e5m2 (w rng : Nat) (hnan : (decompose w).isNan = false)
    (h : (decompose w).isInf = true ∨ 57344 < |val32 w|) :
    encode e5m2fnuzCfg w false rng =
      (if (decompose w).sign then 128 else 0) + 127 := by
  have hclip : clip e5m2fnuzCfg (decompose w) =
      e5m2fnuzCfg.maxBoundDF (decompose w).sign := by
    apply clip_eq_bound
    rcases h with h | h
    · exact Or.inl h
    · refine Or.inr ?_
      rw [maxBound_abs_e5m2]
      exact h
  unfold encode encodeDF
  simp only [hnan, Bool.false_eq_true, if_false]
  rw [hclip]
  cases hs : (decompose w).sign <;> rfl
/-- The rounded significand lies within one discarded-range unit of the exact
significand, whatever the rounding decision. -/
theorem roundSig_err (st : Bool) (rng D m0 : Nat) :
    |(roundSig st rng D m0 : ℤ) * 2 ^ D - m0| ≤ 2 ^ D := by
  have hpos : 0 < (2 : ℕ) ^ D := by positivity
  have hdm := Nat.div_add_mod m0 (2 ^ D)
  have hr : m0 % 2 ^ D < 2 ^ D := Nat.mod_lt _ hpos
  have hdmZ : ((2 : ℤ) ^ D) * ((m0 / 2 ^ D : ℕ) : ℤ) + ((m0 % 2 ^ D : ℕ) : ℤ) = (m0 : ℤ) := by
    exact_mod_cast hdm
  have hrZ : ((m0 % 2 ^ D : ℕ) : ℤ) < 2 ^ D := by exact_mod_cast hr
  have hr0 : (0 : ℤ) ≤ ((m0 % 2 ^ D : ℕ) : ℤ) := by positivity
  have hcases : roundSig st rng D m0 = m0 / 2 ^ D ∨
      roundSig st rng D m0 = m0 / 2 ^ D + 1 := by
    unfold roundSig
    split
    · exact Or.inr rfl
    · exact Or.inl (by omega)
  rcases hcases with h | h <;> rw [h]
  · have heq : ((m0 / 2 ^ D : ℕ) : ℤ) * 2 ^ D - m0 = -((m0 % 2 ^ D : ℕ) : ℤ) := by
      linear_combination hdmZ
    rw [heq, abs_neg, abs_of_nonneg hr0]
    exact hrZ.le
  · have heq : (((m0 / 2 ^ D + 1 : ℕ)) : ℤ) * 2 ^ D - m0 =
        2 ^ D - ((m0 % 2 ^ D : ℕ) : ℤ) := by
      rw [Nat.cast_add, Nat.cast_one]
      linear_combination hdmZ
    rw [heq, abs_of_nonneg (by linarith)]
    linarith

theorem qsub_val (x mb : ℕ) (a : ℤ) :
    (x : ℚ) / 2 ^ mb * (2 : ℚ) ^ a = (x : ℚ) * (2 : ℚ) ^ (a - mb) := by
  rw [sub_eq_add_neg, zpow_add₀ (by norm_num : (2 : ℚ) ≠ 0), zpow_neg, zpow_natCast,
    div_eq_mul_inv]
  ring

theorem qpack_val (x mb : ℕ) (a : ℤ) :
    (1 + (x : ℚ) / 2 ^ mb) * (2 : ℚ) ^ a = ((2 ^ mb + x : ℕ) : ℚ) * (2 : ℚ) ^ (a - mb) := by
  have h2 : ((2 : ℚ)) ^ mb ≠ 0 := by positivity
  have key : (1 + (x : ℚ) / 2 ^ mb) = ((2 ^ mb + x : ℕ) : ℚ) / 2 ^ mb := by
    push_cast
    field_simp
  rw [key, qsub_val]

/-- Unpacking a packed non-saturated code recovers the spec's decode value
formula at the packed fields. -/
theorem specDecodeVal_pack (cfg : FormatConfig)
    (hebmb : cfg.exponent_bits + cfg.mantissa_bits = 7) (s : Bool) (fN m : ℕ)
    (hfN : fN < 2 ^ cfg.exponent_bits) (hm : m < 2 ^ cfg.mantissa_bits) :
    specDecodeVal cfg ((if s then 128 else 0) + fN * 2 ^ cfg.mantissa_bits + m) =
      (if s then (-1 : ℚ) else 1) *
        (if fN = 0 then
          (m : ℚ) / 2 ^ cfg.mantissa_bits * (2 : ℚ) ^ (1 - cfg.bias)
        else
          (1 + (m : ℚ) / 2 ^ cfg.mantissa_bits) * (2 : ℚ) ^ ((fN : ℤ) - cfg.bias)) := by
  have h128 : (2 : ℕ) ^ cfg.exponent_bits * 2 ^ cfg.mantissa_bits = 128 := by
    rw [← pow_add, hebmb]
    norm_num
  have h128m : (2 : ℕ) ^ cfg.mantissa_bits * 2 ^ cfg.exponent_bits = 128 := by
    rw [Nat.mul_comm]
    exact h128
  have hm2 : 1 ≤ (2 : ℕ) ^ cfg.mantissa_bits := Nat.one_le_two_pow
  have he2 : 1 ≤ (2 : ℕ) ^ cfg.exponent_bits := Nat.one_le_two_pow
  have hmbpos : 0 < (2 : ℕ) ^ cfg.mantissa_bits := by positivity
  have hm128 : (2 : ℕ) ^ cfg.mantissa_bits ≤ 128 := by
    calc (2 : ℕ) ^ cfg.mantissa_bits ≤ 2 ^ 7 := Nat.pow_le_pow_right (by norm_num) (by omega)
    _ = 128 := by norm_num
  have hA : fN * 2 ^ cfg.mantissa_bits ≤ 128 - 2 ^ cfg.mantissa_bits := by
    have h1 : fN * 2 ^ cfg.mantissa_bits ≤
        (2 ^ cfg.exponent_bits - 1) * 2 ^ cfg.mantissa_bits :=
      Nat.mul_le_mul_right _ (by omega)
    have h2 : (2 ^ cfg.exponent_bits - 1) * 2 ^ cfg.mantissa_bits =
        2 ^ cfg.exponent_bits * 2 ^ cfg.mantissa_bits - 2 ^ cfg.mantissa_bits :=
      Nat.sub_one_mul _ _
    rw [h2, h128] at h1
    exact h1
  have hx : fN * 2 ^ cfg.mantissa_bits + m < 2 ^ 7 := by
    calc fN * 2 ^ cfg.mantissa_bits + m <
        fN * 2 ^ cfg.mantissa_bits + 2 ^ cfg.mantissa_bits := Nat.add_lt_add_left hm _
    _ ≤ (128 - 2 ^ cfg.mantissa_bits) + 2 ^ cfg.mantissa_bits := Nat.add_le_add_right hA _
    _ = 128 := Nat.sub_add_cancel hm128
    _ = 2 ^ 7 := by norm_num
  have hc : (if s then 128 else 0) + fN * 2 ^ cfg.mantissa_bits + m =
      2 ^ cfg.mantissa_bits * (2 ^ cfg.exponent_bits * (if s then 1 else 0) + fN) + m := by
    cases s
    · simp only [Bool.false_eq_true, if_false]
      ring
    · simp only [if_true]
      rw [Nat.mul_add, ← Nat.mul_assoc, h128m, Nat.mul_one]
      ring
  have hi1 : ((if s then 128 else 0) + fN * 2 ^ cfg.mantissa_bits + m) %
      2 ^ cfg.mantissa_bits = m := by
    rw [hc, Nat.mul_add_mod, Nat.mod_eq_of_lt hm]
  have hi2 : ((if s then 128 else 0) + fN * 2 ^ cfg.mantissa_bits + m) /
      2 ^ cfg.mantissa_bits % 2 ^ cfg.exponent_bits = fN := by
    rw [hc, Nat.mul_add_div hmbpos, Nat.div_eq_of_lt hm, Nat.add_zero,
      Nat.mul_add_mod, Nat.mod_eq_of_lt hfN]
  have hi3 : ((if s then 128 else 0) + fN * 2 ^ cfg.mantissa_bits + m) / 2 ^ 7 % 2 =
      if s then 1 else 0 := by
    cases s
    · simp only [Bool.false_eq_true, if_false]
      rw [Nat.zero_add, Nat.div_eq_of_lt hx, Nat.zero_mod]
    · simp only [if_true]
      rw [Nat.add_assoc, show (128 : ℕ) = 2 ^ 7 from by norm_num,
        Nat.add_comm ((2 : ℕ) ^ 7) _, Nat.add_div_right _ (by positivity),
        Nat.div_eq_of_lt hx]
  unfold specDecodeVal
  rw [hi1, hi2, hi3]
  cases s
  · norm_num
  · norm_num

/-- The zero code decodes to the value zero. -/
theorem specDecodeVal_zero (cfg : FormatConfig) : specDecodeVal cfg 0 = 0 := by
  unfold specDecodeVal
  norm_num

/-- The clip bound's magnitude, in significand-times-scale form. -/
theorem fval_maxBound (cfg : FormatConfig) (hmaxE1 : 1 ≤ cfg.maxExp)
    (hmb23 : cfg.mantissa_bits ≤ 23) :
    |fval (cfg.maxBoundDF false)| =
      ((2 ^ 23 + (2 ^ cfg.mantissa_bits - 1) * 2 ^ (23 - cfg.mantissa_bits) : ℕ) : ℚ) *
        (2 : ℚ) ^ (cfg.maxExp - 23) := by
  rw [abs_fval]
  have h0 : ¬ ((cfg.maxExp + 127).toNat = 0) := by omega
  have hcast : (((cfg.maxExp + 127).toNat : ℕ) : ℤ) = cfg.maxExp + 127 := by omega
  unfold FormatConfig.maxBoundDF sig24 unbExp
  simp only [h0, if_false]
  rw [hcast]
  congr 1
  ring

theorem qnat_pow_cast (n : ℕ) : (((2 : ℕ) ^ n : ℕ) : ℚ) = (2 : ℚ) ^ (n : ℤ) := by
  push_cast
  rw [← zpow_natCast (2 : ℚ) n]

/-- The value decoded back from an encoded in-range, non-NaN float32 is the
rounded significand times the scale of the discarded bits: the encoder is
exactly `round to the grid of the target format`. -/
theorem encodeDF_val (cfg : FormatConfig)
    (hmb1 : 1 ≤ cfg.mantissa_bits)
    (hebmb : cfg.exponent_bits + cfg.mantissa_bits = 7)
    (hbias1 : 1 ≤ cfg.bias) (hbias126 : cfg.bias ≤ 126)
    (hmaxE1 : 1 ≤ cfg.maxExp)
    (d : DecomposedFloat) (hd : d.valid) (hnan : d.isNan = false)
    (hinf : d.isInf = false)
    (hle : |fval d| ≤ |fval (cfg.maxBoundDF false)|) (st : Bool) (rng : Nat) :
    specDecodeVal cfg (encodeDF cfg d st rng) =
      (if d.sign then (-1 : ℚ) else 1) *
        ((roundSig st rng (encShift cfg (unbExp d + cfg.bias)) (sig24 d) : ℕ) : ℚ) *
        (2 : ℚ) ^ (unbExp d - 23 + (encShift cfg (unbExp d + cfg.bias) : ℤ)) := by
  have hmb6 : cfg.mantissa_bits ≤ 6 := by
    rcases Nat.eq_zero_or_pos cfg.exponent_bits with h | h
    · exfalso
      unfold FormatConfig.maxExp at hmaxE1
      rw [h] at hmaxE1
      norm_num at hmaxE1
      linarith
    · omega
  have hmb23 : cfg.mantissa_bits ≤ 23 := by omega
  have heb1 : 1 ≤ cfg.exponent_bits := by omega
  have hEq : cfg.maxExp + cfg.bias = 2 ^ cfg.exponent_bits - 1 := by
    unfold FormatConfig.maxExp
    ring
  have hcastEB : (((2 : ℕ) ^ cfg.exponent_bits : ℕ) : ℤ) = (2 : ℤ) ^ cfg.exponent_bits := by
    push_cast
    rfl
  have hm0lt : sig24 d < 2 ^ 24 := sig24_lt d hd
  have hclip : clip cfg d = d := clip_eq_self cfg d hinf hle
  unfold encodeDF
  simp only [hnan, Bool.false_eq_true, if_false]
  rw [hclip]
  rcases le_or_lt (unbExp d + cfg.bias) 0 with htle | htpos
  · -- subnormal path
    have hDval : ((encShift cfg (unbExp d + cfg.bias) : ℕ) : ℤ) =
        24 - cfg.mantissa_bits - (unbExp d + cfg.bias) := by
      unfold encShift
      omega
    have hD24 : 24 - cfg.mantissa_bits ≤ encShift cfg (unbExp d + cfg.bias) := by
      unfold encShift
      omega
    have hk1le : roundSig st rng (encShift cfg (unbExp d + cfg.bias)) (sig24 d) ≤
        2 ^ cfg.mantissa_bits :=
      roundSig_le_pow st rng _ (sig24 d) cfg.mantissa_bits hm0lt hD24 (by omega)
    set k1 := roundSig st rng (encShift cfg (unbExp d + cfg.bias)) (sig24 d) with hk1def
    have hexp : unbExp d - 23 + ((encShift cfg (unbExp d + cfg.bias) : ℕ) : ℤ) =
        1 - cfg.bias - cfg.mantissa_bits := by
      omega
    rw [hexp]
    by_cases hk1eq : k1 = 2 ^ cfg.mantissa_bits
    · rw [encStore_sub_hi cfg _ _ htle (by omega)]
      show specDecodeVal cfg (packCode cfg d.sign 1 (k1 - 2 ^ cfg.mantissa_bits)) = _
      have hz : k1 - 2 ^ cfg.mantissa_bits = 0 := by omega
      rw [hz]
      unfold packCode
      rw [if_neg (by omega), if_neg (by norm_num), Int.toNat_one]
      rw [specDecodeVal_pack cfg hebmb d.sign 1 0
        (Nat.one_lt_two_pow_iff.mpr (by omega)) (by positivity)]
      rw [if_neg (by norm_num : ¬(1 : ℕ) = 0), hk1eq]
      rw [qnat_pow_cast cfg.mantissa_bits, mul_assoc, zpow_add_two,
        show (cfg.mantissa_bits : ℤ) + (1 - cfg.bias - (cfg.mantissa_bits : ℤ)) =
          1 - cfg.bias from by ring]
      norm_num
    · have hk1lt : k1 < 2 ^ cfg.mantissa_bits := by omega
      rw [encStore_sub_lo cfg _ _ htle hk1lt]
      show specDecodeVal cfg (packCode cfg d.sign 0 k1) = _
      by_cases hk0 : k1 = 0
      · rw [hk0]
        unfold packCode
        rw [if_neg (by omega), if_pos ⟨rfl, rfl⟩, specDecodeVal_zero]
        norm_num
      · unfold packCode
        rw [if_neg (by omega), if_neg (by simp [hk0]), Int.toNat_zero]
        rw [specDecodeVal_pack cfg hebmb d.sign 0 k1 (by positivity) hk1lt]
        rw [if_pos rfl, qsub_val k1 cfg.mantissa_bits (1 - cfg.bias)]
        ring
  · -- normal path
    have hDeq : encShift cfg (unbExp d + cfg.bias) = 23 - cfg.mantissa_bits := by
      unfold encShift
      omega
    rw [hDeq]
    have hDvalB : (((23 : ℕ) - cfg.mantissa_bits : ℕ) : ℤ) =
        23 - (cfg.mantissa_bits : ℤ) := by
      omega
    have hex0 : d.ex ≠ 0 := by
      intro h
      have he : unbExp d = -126 := by
        unfold unbExp
        rw [if_pos h]
        norm_num
      omega
    have hm0ge : 2 ^ 23 ≤ sig24 d := by
      unfold sig24
      rw [if_neg hex0]
      omega
    have hk1ge : 2 ^ cfg.mantissa_bits ≤ roundSig st rng (23 - cfg.mantissa_bits) (sig24 d) := by
      have h2 : (2 : ℕ) ^ 23 / 2 ^ (23 - cfg.mantissa_bits) = 2 ^ cfg.mantissa_bits := by
        rw [Nat.pow_div (by omega) (by norm_num)]
        congr 1
        omega
      calc (2 : ℕ) ^ cfg.mantissa_bits = 2 ^ 23 / 2 ^ (23 - cfg.mantissa_bits) := h2.symm
      _ ≤ sig24 d / 2 ^ (23 - cfg.mantissa_bits) := Nat.div_le_div_right hm0ge
      _ ≤ _ := roundSig_ge st rng _ (sig24 d)
    have hk1le2 : roundSig st rng (23 - cfg.mantissa_bits) (sig24 d) ≤
        2 ^ (cfg.mantissa_bits + 1) :=
      roundSig_le_pow_succ st rng cfg.mantissa_bits (sig24 d) hm0lt hmb23
    set k1 := roundSig st rng (23 - cfg.mantissa_bits) (sig24 d) with hk1def
    have hMB := fval_maxBound cfg hmaxE1 hmb23
    have he0max : unbExp d ≤ cfg.maxExp := by
      by_contra hcon
      push_neg at hcon
      rw [abs_fval, hMB] at hle
      have hsig : (((2 : ℕ) ^ 23 : ℕ) : ℚ) ≤ (sig24 d : ℚ) := by exact_mod_cast hm0ge
      have hmaxSn : (2 ^ 23 + (2 ^ cfg.mantissa_bits - 1) * 2 ^ (23 - cfg.mantissa_bits) : ℕ) <
          2 ^ 24 := by
        have hsplit : (2 : ℕ) ^ cfg.mantissa_bits * 2 ^ (23 - cfg.mantissa_bits) = 2 ^ 23 := by
          rw [← pow_add]
          congr 1
          omega
        have hlt : (2 ^ cfg.mantissa_bits - 1) * 2 ^ (23 - cfg.mantissa_bits) <
            2 ^ cfg.mantissa_bits * 2 ^ (23 - cfg.mantissa_bits) :=
          Nat.mul_lt_mul_of_lt_of_le (by have := Nat.one_le_two_pow (n := cfg.mantissa_bits); omega)
            (le_refl _) (by positivity)
        have h24 : (2 : ℕ) ^ 24 = 2 ^ 23 + 2 ^ 23 := by norm_num
        omega
      have hmaxSlt : ((2 ^ 23 + (2 ^ cfg.mantissa_bits - 1) * 2 ^ (23 - cfg.mantissa_bits) : ℕ) : ℚ) <
          (((2 : ℕ) ^ 24 : ℕ) : ℚ) := by exact_mod_cast hmaxSn
      have hchain : ((2 ^ 23 + (2 ^ cfg.mantissa_bits - 1) * 2 ^ (23 - cfg.mantissa_bits) : ℕ) : ℚ) *
          (2 : ℚ) ^ (cfg.maxExp - 23) < (sig24 d : ℚ) * (2 : ℚ) ^ (unbExp d - 23) := by
        calc ((2 ^ 23 + (2 ^ cfg.mantissa_bits - 1) * 2 ^ (23 - cfg.mantissa_bits) : ℕ) : ℚ) *
            (2 : ℚ) ^ (cfg.maxExp - 23) <
            (((2 : ℕ) ^ 24 : ℕ) : ℚ) * (2 : ℚ) ^ (cfg.maxExp - 23) :=
          mul_lt_mul_of_pos_right hmaxSlt (by positivity)
        _ = (2 : ℚ) ^ (cfg.maxExp + 1) := by
            rw [qnat_pow_cast 24, zpow_add_two]
            congr 1
            omega
        _ ≤ (2 : ℚ) ^ (unbExp d) := zpow_le_zpow_right₀ (by norm_num) (by omega)
        _ = (((2 : ℕ) ^ 23 : ℕ) : ℚ) * (2 : ℚ) ^ (unbExp d - 23) := by
            rw [qnat_pow_cast 23, zpow_add_two]
            congr 1
            omega
        _ ≤ (sig24 d : ℚ) * (2 : ℚ) ^ (unbExp d - 23) :=
          mul_le_mul_of_nonneg_right hsig (by positivity)
      linarith
    by_cases hk1eq : k1 = 2 ^ (cfg.mantissa_bits + 1)
    · -- rounding carried out of the top kept bit: exponent bumps, mantissa 0
      have hne : unbExp d ≠ cfg.maxExp := by
        intro heq
        rw [abs_fval, hMB, heq] at hle
        have hm0le : sig24 d ≤
            2 ^ 23 + (2 ^ cfg.mantissa_bits - 1) * 2 ^ (23 - cfg.mantissa_bits) := by
          have := le_of_mul_le_mul_right hle
            (by positivity : (0 : ℚ) < (2 : ℚ) ^ (cfg.maxExp - 23))
          exact_mod_cast this
        have hsplit : (2 : ℕ) ^ cfg.mantissa_bits * 2 ^ (23 - cfg.mantissa_bits) = 2 ^ 23 := by
          rw [← pow_add]
          congr 1
          omega
        have hmaxS : (2 : ℕ) ^ 23 + (2 ^ cfg.mantissa_bits - 1) * 2 ^ (23 - cfg.mantissa_bits) =
            (2 ^ (cfg.mantissa_bits + 1) - 1) * 2 ^ (23 - cfg.mantissa_bits) := by
          have hs2 : (2 : ℕ) ^ (cfg.mantissa_bits + 1) * 2 ^ (23 - cfg.mantissa_bits) =
              2 ^ 24 := by
            rw [← pow_add]
            congr 1
            omega
          have hPle : (2 : ℕ) ^ (23 - cfg.mantissa_bits) ≤ 2 ^ 23 := by
            calc (2 : ℕ) ^ (23 - cfg.mantissa_bits) ≤
                2 ^ cfg.mantissa_bits * 2 ^ (23 - cfg.mantissa_bits) :=
              Nat.le_mul_of_pos_left _ (by positivity)
            _ = 2 ^ 23 := hsplit
          rw [Nat.sub_one_mul, Nat.sub_one_mul, hsplit, hs2]
          have h24 : (2 : ℕ) ^ 24 = 2 ^ 23 + 2 ^ 23 := by norm_num
          omega
        rw [hmaxS] at hm0le
        have hpos : 0 < (2 : ℕ) ^ (23 - cfg.mantissa_bits) := by positivity
        have hkle : sig24 d / 2 ^ (23 - cfg.mantissa_bits) ≤ 2 ^ (cfg.mantissa_bits + 1) - 1 := by
          calc sig24 d / 2 ^ (23 - cfg.mantissa_bits) ≤
              (2 ^ (cfg.mantissa_bits + 1) - 1) * 2 ^ (23 - cfg.mantissa_bits) /
                2 ^ (23 - cfg.mantissa_bits) := Nat.div_le_div_right hm0le
          _ = 2 ^ (cfg.mantissa_bits + 1) - 1 := Nat.mul_div_cancel _ hpos
        by_cases hk : sig24 d / 2 ^ (23 - cfg.mantissa_bits) = 2 ^ (cfg.mantissa_bits + 1) - 1
        · have h5 : (2 ^ (cfg.mantissa_bits + 1) - 1) * 2 ^ (23 - cfg.mantissa_bits) ≤
              sig24 d := by
            rw [← hk]
            exact Nat.div_mul_le_self _ _
          have h6 : sig24 d = (2 ^ (cfg.mantissa_bits + 1) - 1) * 2 ^ (23 - cfg.mantissa_bits) :=
            le_antisymm hm0le h5
          have hr0 : sig24 d % 2 ^ (23 - cfg.mantissa_bits) = 0 := by
            rw [h6]
            exact Nat.mul_mod_left _ _
          have hfin : k1 = 2 ^ (cfg.mantissa_bits + 1) - 1 := by
            rw [hk1def, roundSig_of_exact st rng _ _ hr0, hk]
          have h3 : (1 : ℕ) ≤ 2 ^ (cfg.mantissa_bits + 1) := Nat.one_le_two_pow
          omega
        · have hklt : sig24 d / 2 ^ (23 - cfg.mantissa_bits) < 2 ^ (cfg.mantissa_bits + 1) - 1 := by
            omega
          have hub := roundSig_le st rng (23 - cfg.mantissa_bits) (sig24 d)
          rw [hk1def] at hk1eq
          obtain ⟨q, hq⟩ : ∃ q, sig24 d / 2 ^ (23 - cfg.mantissa_bits) = q := ⟨_, rfl⟩
          rw [hq] at hub hklt
          obtain ⟨T, hT⟩ : ∃ T, (2 : ℕ) ^ (cfg.mantissa_bits + 1) = T := ⟨_, rfl⟩
          rw [hT] at hklt hk1eq
          have hT1 : 1 ≤ T := hT ▸ Nat.one_le_two_pow
          omega
      have ht1 : unbExp d + cfg.bias + 1 ≤ 2 ^ cfg.exponent_bits - 1 := by
        have : unbExp d ≤ cfg.maxExp - 1 := by omega
        omega
      rw [encStore_norm_hi cfg _ _ htpos (by omega)]
      show specDecodeVal cfg (packCode cfg d.sign (unbExp d + cfg.bias + 1) 0) = _
      unfold packCode
      rw [if_neg (by omega), if_neg (by rintro ⟨h1, h2⟩; omega)]
      have htnlt : (unbExp d + cfg.bias + 1).toNat < 2 ^ cfg.exponent_bits := by omega
      rw [specDecodeVal_pack cfg hebmb d.sign _ 0 htnlt (by positivity)]
      rw [if_neg (by omega : ¬(unbExp d + cfg.bias + 1).toNat = 0), hk1eq]
      have htn : (((unbExp d + cfg.bias + 1).toNat : ℕ) : ℤ) = unbExp d + cfg.bias + 1 := by
        omega
      rw [htn, hDvalB, qnat_pow_cast (cfg.mantissa_bits + 1), mul_assoc, zpow_add_two,
        show ((cfg.mantissa_bits + 1 : ℕ) : ℤ) +
            (unbExp d - 23 + (23 - (cfg.mantissa_bits : ℤ))) =
          unbExp d + cfg.bias + 1 - cfg.bias from by push_cast; ring]
      norm_num
    · -- no carry out of the kept width: exponent stays, mantissa is the low bits
      have hk1lt : k1 < 2 ^ (cfg.mantissa_bits + 1) := by omega
      have ht2 : unbExp d + cfg.bias ≤ 2 ^ cfg.exponent_bits - 1 := by omega
      rw [encStore_norm_lo cfg _ _ htpos (by omega)]
      show specDecodeVal cfg
        (packCode cfg d.sign (unbExp d + cfg.bias) (k1 - 2 ^ cfg.mantissa_bits)) = _
      unfold packCode
      rw [if_neg (by omega), if_neg (by rintro ⟨h1, h2⟩; omega)]
      have htnlt : (unbExp d + cfg.bias).toNat < 2 ^ cfg.exponent_bits := by omega
      have hmlt : k1 - 2 ^ cfg.mantissa_bits < 2 ^ cfg.mantissa_bits := by
        have hp : (2 : ℕ) ^ (cfg.mantissa_bits + 1) = 2 ^ cfg.mantissa_bits * 2 := pow_succ 2 _
        omega
      rw [specDecodeVal_pack cfg hebmb d.sign _ _ htnlt hmlt]
      rw [if_neg (by omega : ¬(unbExp d + cfg.bias).toNat = 0)]
      rw [qpack_val (k1 - 2 ^ cfg.mantissa_bits) cfg.mantissa_bits _]
      rw [Nat.add_sub_cancel' hk1ge]
      have htn : (((unbExp d + cfg.bias).toNat : ℕ) : ℤ) = unbExp d + cfg.bias := by omega
      rw [htn, hDvalB]
      have hexpeq : unbExp d + cfg.bias - cfg.bias - (cfg.mantissa_bits : ℤ) =
          unbExp d - 23 + (23 - (cfg.mantissa_bits : ℤ)) := by ring
      rw [hexpeq]
      ring

/-- The round-trip error of the encoder against the decoded value is at most
one unit in the last place of the narrow format at the input's binade. -/
theorem encodeDF_err (cfg : FormatConfig)
    (hmb1 : 1 ≤ cfg.mantissa_bits)
    (hebmb : cfg.exponent_bits + cfg.mantissa_bits = 7)
    (hbias1 : 1 ≤ cfg.bias) (hbias126 : cfg.bias ≤ 126)
    (hmaxE1 : 1 ≤ cfg.maxExp)
    (d : DecomposedFloat) (hd : d.valid) (hnan : d.isNan = false)
    (hinf : d.isInf = false)
    (hle : |fval d| ≤ |fval (cfg.maxBoundDF false)|) (st : Bool) (rng : Nat) :
    |specDecodeVal cfg (encodeDF cfg d st rng) - fval d| ≤ ulpAt cfg d := by
  rw [encodeDF_val cfg hmb1 hebmb hbias1 hbias126 hmaxE1 d hd hnan hinf hle st rng]
  have hmb6 : cfg.mantissa_bits ≤ 6 := by
    rcases Nat.eq_zero_or_pos cfg.exponent_bits with h | h
    · exfalso
      unfold FormatConfig.maxExp at hmaxE1
      rw [h] at hmaxE1
      norm_num at hmaxE1
      linarith
    · omega
  have hmb23 : cfg.mantissa_bits ≤ 23 := by omega
  have herr := roundSig_err st rng (encShift cfg (unbExp d + cfg.bias)) (sig24 d)
  have herrQ : |((roundSig st rng (encShift cfg (unbExp d + cfg.bias)) (sig24 d) : ℕ) : ℚ) *
      (2 : ℚ) ^ (encShift cfg (unbExp d + cfg.bias)) - ((sig24 d : ℕ) : ℚ)| ≤
      (2 : ℚ) ^ (encShift cfg (unbExp d + cfg.bias)) := by
    exact_mod_cast herr
  have hσ : |(if d.sign then (-1 : ℚ) else 1)| = 1 := by
    cases d.sign <;> simp
  have hexple : ((encShift cfg (unbExp d + cfg.bias) : ℕ) : ℤ) + (unbExp d - 23) ≤
      max (1 - cfg.bias - cfg.mantissa_bits) (unbExp d - cfg.mantissa_bits) := by
    have hD : ((encShift cfg (unbExp d + cfg.bias) : ℕ) : ℤ) =
        23 - cfg.mantissa_bits + (1 - (unbExp d + cfg.bias)).toNat := by
      unfold encShift
      omega
    rcases le_or_lt (unbExp d + cfg.bias) 0 with h | h
    · apply le_max_iff.mpr
      left
      omega
    · apply le_max_iff.mpr
      right
      omega
  unfold fval ulpAt
  have hsplit : (2 : ℚ) ^ (unbExp d - 23 + (encShift cfg (unbExp d + cfg.bias) : ℤ)) =
      (2 : ℚ) ^ (unbExp d - 23) * (2 : ℚ) ^ (encShift cfg (unbExp d + cfg.bias)) := by
    rw [← zpow_add_two, zpow_natCast]
  rw [hsplit]
  rw [show (if d.sign then (-1 : ℚ) else 1) *
        ((roundSig st rng (encShift cfg (unbExp d + cfg.bias)) (sig24 d) : ℕ) : ℚ) *
        ((2 : ℚ) ^ (unbExp d - 23) * (2 : ℚ) ^ (encShift cfg (unbExp d + cfg.bias))) -
        (if d.sign then (-1 : ℚ) else 1) * ((sig24 d : ℕ) : ℚ) *
        (2 : ℚ) ^ (unbExp d - 23) =
      (if d.sign then (-1 : ℚ) else 1) *
        ((((roundSig st rng (encShift cfg (unbExp d + cfg.bias)) (sig24 d) : ℕ) : ℚ) *
          (2 : ℚ) ^ (encShift cfg (unbExp d + cfg.bias)) - ((sig24 d : ℕ) : ℚ)) *
          (2 : ℚ) ^ (unbExp d - 23)) from by ring]
  rw [abs_mul, hσ, one_mul, abs_mul,
    abs_of_pos (show (0 : ℚ) < (2 : ℚ) ^ (unbExp d - 23) from by positivity)]
  calc |((roundSig st rng (encShift cfg (unbExp d + cfg.bias)) (sig24 d) : ℕ) : ℚ) *
        (2 : ℚ) ^ (encShift cfg (unbExp d + cfg.bias)) - ((sig24 d : ℕ) : ℚ)| *
        (2 : ℚ) ^ (unbExp d - 23) ≤
      (2 : ℚ) ^ (encShift cfg (unbExp d + cfg.bias)) * (2 : ℚ) ^ (unbExp d - 23) :=
    mul_le_mul_of_nonneg_right herrQ (by positivity)
  _ = (2 : ℚ) ^ (((encShift cfg (unbExp d + cfg.bias) : ℕ) : ℤ) + (unbExp d - 23)) := by
      rw [← zpow_natCast (2 : ℚ) (encShift cfg (unbExp d + cfg.bias)), zpow_add_two]
  _ ≤ (2 : ℚ) ^ max (1 - cfg.bias - cfg.mantissa_bits) (unbExp d - cfg.mantissa_bits) :=
    zpow_le_zpow_right₀ (by norm_num) hexple

end Fnuz

/-! ## Claim theorems -/

set_option maxRecDepth 16000 in
/-- C1: for every 8-bit code `c` other than the NaN sentinel `0x80`, encoding
the decoded value with standard rounding returns `c` exactly, for both the
e4m3fnuz and the e5m2fnuz formats. -/
theorem encode_decode_roundtrip (c : Fin 256) (hc : c.val ≠ 128) :
    Fnuz.encode Fnuz.e4m3fnuzCfg (Fnuz.decode Fnuz.e4m3fnuzCfg c.val) false 0 = c.val ∧
    Fnuz.encode Fnuz.e5m2fnuzCfg (Fnuz.decode Fnuz.e5m2fnuzCfg c.val) false 0 = c.val := by
  revert hc
  revert c
  decide

set_option maxRecDepth 4000 in
/-- Witness for C1 at the concrete code `0x43`. -/
theorem encode_decode_roundtrip_witness :
    Fnuz.encode Fnuz.e4m3fnuzCfg (Fnuz.decode Fnuz.e4m3fnuzCfg 67) false 0 = 67 ∧
    Fnuz.encode Fnuz.e5m2fnuzCfg (Fnuz.decode Fnuz.e5m2fnuzCfg 67) false 0 = 67 :=
  encode_decode_roundtrip ⟨67, by decide⟩ (by decide)

/-- C2: every non-sentinel 8-bit code decodes to
`sign × (m / 2^mb) × 2^(1 − bias)` when the exponent field is zero and to
`sign × (1 + m / 2^mb) × 2^(f − bias)` otherwise, for both formats; in
particular the code `0x40` decodes to exactly `1.0` in both formats. -/
theorem decode_value_formula (c : Fin 256) (hc : c.val ≠ 128) :
    (Fnuz.val32 (Fnuz.decode Fnuz.e4m3fnuzCfg c.val) =
        Fnuz.specDecodeVal Fnuz.e4m3fnuzCfg c.val ∧
      Fnuz.val32 (Fnuz.decode Fnuz.e5m2fnuzCfg c.val) =
        Fnuz.specDecodeVal Fnuz.e5m2fnuzCfg c.val) ∧
    Fnuz.val32 (Fnuz.decode Fnuz.e4m3fnuzCfg 64) = 1 ∧
    Fnuz.val32 (Fnuz.decode Fnuz.e5m2fnuzCfg 64) = 1 := by
  refine ⟨⟨Fnuz.val32_decode_e4m3 c.val hc, Fnuz.val32_decode_e5m2 c.val hc⟩, ?_, ?_⟩
  · rw [Fnuz.val32_decode_e4m3 64 (by norm_num)]
    norm_num [Fnuz.specDecodeVal, Fnuz.e4m3fnuzCfg]
  · rw [Fnuz.val32_decode_e5m2 64 (by norm_num)]
    norm_num [Fnuz.specDecodeVal, Fnuz.e5m2fnuzCfg]

/-- Witness for C2 at the concrete code `0x01`. -/
theorem decode_value_formula_witness :
    (Fnuz.val32 (Fnuz.decode Fnuz.e4m3fnuzCfg 1) =
        Fnuz.specDecodeVal Fnuz.e4m3fnuzCfg 1 ∧
      Fnuz.val32 (Fnuz.decode Fnuz.e5m2fnuzCfg 1) =
        Fnuz.specDecodeVal Fnuz.e5m2fnuzCfg 1) ∧
    Fnuz.val32 (Fnuz.decode Fnuz.e4m3fnuzCfg 64) = 1 ∧
    Fnuz.val32 (Fnuz.decode Fnuz.e5m2fnuzCfg 64) = 1 :=
  decode_value_formula ⟨1, by norm_num⟩ (by norm_num)

set_option maxRecDepth 4000 in
/-- C7: `Float8_e4m3fnuz::isnan()` returns true exactly on the sentinel
pattern `0x80`. -/
theorem isnan_iff_sentinel (c : Fin 256) :
    Float8_e4m3fnuz.isnan c.val = true ↔ c.val = 128 := by
  revert c
  decide

/-- C8: decode is total over all 256 codes for both formats: it always
returns a well-formed 32-bit word, and on non-sentinel codes that word
already carries exactly the prescribed rational value, with no further
rounding and no error branch. -/
theorem decode_total_exact (c : Fin 256) :
    (Fnuz.decode Fnuz.e4m3fnuzCfg c.val < 2 ^ 32 ∧
      Fnuz.decode Fnuz.e5m2fnuzCfg c.val < 2 ^ 32) ∧
    (c.val ≠ 128 →
      Fnuz.val32 (Fnuz.decode Fnuz.e4m3fnuzCfg c.val) =
          Fnuz.specDecodeVal Fnuz.e4m3fnuzCfg c.val ∧
        Fnuz.val32 (Fnuz.decode Fnuz.e5m2fnuzCfg c.val) =
          Fnuz.specDecodeVal Fnuz.e5m2fnuzCfg c.val) := by
  constructor
  · constructor
    · exact Fnuz.compose_lt _ (Fnuz.decodeDF_valid _ (by norm_num [Fnuz.e4m3fnuzCfg])
        (by norm_num [Fnuz.e4m3fnuzCfg]) (by norm_num [Fnuz.e4m3fnuzCfg])
        (by norm_num [Fnuz.e4m3fnuzCfg]) c.val)
    · exact Fnuz.compose_lt _ (Fnuz.decodeDF_valid _ (by norm_num [Fnuz.e5m2fnuzCfg])
        (by norm_num [Fnuz.e5m2fnuzCfg]) (by norm_num [Fnuz.e5m2fnuzCfg])
        (by norm_num [Fnuz.e5m2fnuzCfg]) c.val)
  · intro hc
    exact ⟨Fnuz.val32_decode_e4m3 c.val hc, Fnuz.val32_decode_e5m2 c.val hc⟩

/-- Witness for C8 at the concrete code `0xC3`. -/
theorem decode_total_exact_witness :
    (Fnuz.decode Fnuz.e4m3fnuzCfg 195 < 2 ^ 32 ∧
      Fnuz.decode Fnuz.e5m2fnuzCfg 195 < 2 ^ 32) ∧
    (Fnuz.val32 (Fnuz.decode Fnuz.e4m3fnuzCfg 195) =
        Fnuz.specDecodeVal Fnuz.e4m3fnuzCfg 195 ∧
      Fnuz.val32 (Fnuz.decode Fnuz.e5m2fnuzCfg 195) =
        Fnuz.specDecodeVal Fnuz.e5m2fnuzCfg 195) :=
  ⟨(decode_total_exact ⟨195, by norm_num⟩).1,
    (decode_total_exact ⟨195, by norm_num⟩).2 (by norm_num)⟩

/-- C9: the `std::numeric_limits<c10::Float8_e4m3fnuz>` table is consistent
with the decoder: `max()` decodes to 240, `lowest()` to −240, `min()` to
`2^−7`, `denorm_min()` to `2^−10`, `epsilon()` to `2^−3`, and `quiet_NaN()`
is the sentinel recognized by `isnan()`. -/
theorem numeric_limits_consistent :
    Fnuz.val32 (Fnuz.decode Fnuz.e4m3fnuzCfg numeric_limits_Float8_e4m3fnuz.nl_max) = 240 ∧
    Fnuz.val32 (Fnuz.decode Fnuz.e4m3fnuzCfg numeric_limits_Float8_e4m3fnuz.nl_lowest) = -240 ∧
    Fnuz.val32 (Fnuz.decode Fnuz.e4m3fnuzCfg numeric_limits_Float8_e4m3fnuz.nl_min) =
      (2 : ℚ) ^ (-7 : ℤ) ∧
    Fnuz.val32 (Fnuz.decode Fnuz.e4m3fnuzCfg numeric_limits_Float8_e4m3fnuz.nl_denorm_min) =
      (2 : ℚ) ^ (-10 : ℤ) ∧
    Fnuz.val32 (Fnuz.decode Fnuz.e4m3fnuzCfg numeric_limits_Float8_e4m3fnuz.nl_epsilon) =
      (2 : ℚ) ^ (-3 : ℤ) ∧
    Float8_e4m3fnuz.isnan numeric_limits_Float8_e4m3fnuz.nl_quiet_NaN = true := by
  norm_num [Fnuz.val32, Fnuz.fval, Fnuz.decode, Fnuz.decodeDF, Fnuz.decompose, Fnuz.compose,
    Fnuz.sig24, Fnuz.unbExp, Fnuz.e4m3fnuzCfg, Fnuz.floorLog2, Fnuz.floorLog2Fuel,
    show (134 : ℤ).toNat = 134 from rfl, show (120 : ℤ).toNat = 120 from rfl,
    show (117 : ℤ).toNat = 117 from rfl, show (124 : ℤ).toNat = 124 from rfl,
    Float8_e4m3fnuz.isnan, numeric_limits_Float8_e4m3fnuz.nl_max,
    numeric_limits_Float8_e4m3fnuz.nl_lowest, numeric_limits_Float8_e4m3fnuz.nl_min,
    numeric_limits_Float8_e4m3fnuz.nl_denorm_min, numeric_limits_Float8_e4m3fnuz.nl_epsilon,
    numeric_limits_Float8_e4m3fnuz.nl_quiet_NaN]


/-- C3: every float32 NaN input — any payload, either sign — encodes to the
sentinel `0x80`, in both rounding modes, for any random bits, in both
formats. -/
theorem encode_nan_sentinel (w : Nat) (h : (Fnuz.decompose w).isNan = true)
    (st : Bool) (rng : Nat) :
    Fnuz.encode Fnuz.e4m3fnuzCfg w st rng = 128 ∧
    Fnuz.encode Fnuz.e5m2fnuzCfg w st rng = 128 := by
  constructor <;>
    · unfold Fnuz.encode Fnuz.encodeDF
      rw [if_pos h]

/-- Witness for C3 at the negative NaN pattern `0xFFC03039`. -/
theorem encode_nan_sentinel_witness :
    Fnuz.encode Fnuz.e4m3fnuzCfg (Fnuz.compose ⟨true, 255, 12345⟩) true 7 = 128 ∧
    Fnuz.encode Fnuz.e5m2fnuzCfg (Fnuz.compose ⟨true, 255, 12345⟩) true 7 = 128 :=
  encode_nan_sentinel (Fnuz.compose ⟨true, 255, 12345⟩) (by decide) true 7

/-- C6: encoding positive zero and negative zero yields `0x00` under either
rounding mode and any random bits, and no non-NaN input ever encodes to the
sign-bit-only pattern `0x80` — so every zero-magnitude result, including
underflow, carries sign bit 0, in both formats. -/
theorem encode_zero_unsigned (st : Bool) (rng : Nat) (w : Nat)
    (hw : (Fnuz.decompose w).isNan = false) :
    (Fnuz.encode Fnuz.e4m3fnuzCfg 0 st rng = 0 ∧
      Fnuz.encode Fnuz.e4m3fnuzCfg (2 ^ 31) st rng = 0 ∧
      Fnuz.encode Fnuz.e5m2fnuzCfg 0 st rng = 0 ∧
      Fnuz.encode Fnuz.e5m2fnuzCfg (2 ^ 31) st rng = 0) ∧
    Fnuz.encode Fnuz.e4m3fnuzCfg w st rng ≠ 128 ∧
    Fnuz.encode Fnuz.e5m2fnuzCfg w st rng ≠ 128 := by
  refine ⟨⟨?_, ?_, ?_, ?_⟩, ?_, ?_⟩
  · exact Fnuz.encodeDF_of_zero _ (by norm_num [Fnuz.e4m3fnuzCfg]) _ (by decide) (by decide) st rng
  · exact Fnuz.encodeDF_of_zero _ (by norm_num [Fnuz.e4m3fnuzCfg]) _ (by decide) (by decide) st rng
  · exact Fnuz.encodeDF_of_zero _ (by norm_num [Fnuz.e5m2fnuzCfg]) _ (by decide) (by decide) st rng
  · exact Fnuz.encodeDF_of_zero _ (by norm_num [Fnuz.e5m2fnuzCfg]) _ (by decide) (by decide) st rng
  · exact Fnuz.encodeDF_ne_sentinel _ (by norm_num [Fnuz.e4m3fnuzCfg])
      (by norm_num [Fnuz.e4m3fnuzCfg]) (by norm_num [Fnuz.e4m3fnuzCfg])
      (by norm_num [Fnuz.e4m3fnuzCfg]) _ (Fnuz.decompose_valid w) hw st rng
  · exact Fnuz.encodeDF_ne_sentinel _ (by norm_num [Fnuz.e5m2fnuzCfg])
      (by norm_num [Fnuz.e5m2fnuzCfg]) (by norm_num [Fnuz.e5m2fnuzCfg])
      (by norm_num [Fnuz.e5m2fnuzCfg]) _ (Fnuz.decompose_valid w) hw st rng

/-- Witness for C6: stochastic mode with random bits 99 at the word
`0x40490FDB` (the float32 nearest π). -/
theorem encode_zero_unsigned_witness :
    (Fnuz.encode Fnuz.e4m3fnuzCfg 0 true 99 = 0 ∧
      Fnuz.encode Fnuz.e4m3fnuzCfg (2 ^ 31) true 99 = 0 ∧
      Fnuz.encode Fnuz.e5m2fnuzCfg 0 true 99 = 0 ∧
      Fnuz.encode Fnuz.e5m2fnuzCfg (2 ^ 31) true 99 = 0) ∧
    Fnuz.encode Fnuz.e4m3fnuzCfg 1078530011 true 99 ≠ 128 ∧
    Fnuz.encode Fnuz.e5m2fnuzCfg 1078530011 true 99 ≠ 128 :=
  encode_zero_unsigned true 99 1078530011 (by decide)

/-- C10: each arithmetic operator of the `Float8_e4m3fnuz` wrapper —
`operator+`, `operator-`, `operator*`, `operator/` — returns exactly the
composition prescribed by the spec: decode both operands to float32, apply
the operation at 32-bit precision, re-encode with standard rounding. -/
theorem wrapper_ops_are_composition (a b : Fin 256) :
    Float8_e4m3fnuz.add a.val b.val =
        Fnuz.specWrapperOp Fnuz.e4m3fnuzCfg Fnuz.f32add a.val b.val ∧
      Float8_e4m3fnuz.sub a.val b.val =
        Fnuz.specWrapperOp Fnuz.e4m3fnuzCfg Fnuz.f32sub a.val b.val ∧
      Float8_e4m3fnuz.mul a.val b.val =
        Fnuz.specWrapperOp Fnuz.e4m3fnuzCfg Fnuz.f32mul a.val b.val ∧
      Float8_e4m3fnuz.div a.val b.val =
        Fnuz.specWrapperOp Fnuz.e4m3fnuzCfg Fnuz.f32div a.val b.val :=
  ⟨rfl, rfl, rfl, rfl⟩


set_option maxRecDepth 4000 in
/-- C4: any float32 input beyond the format's finite range — infinities
included — saturates under standard rounding to the maximum finite code of
its sign instead of the NaN encoding; concretely, the float32 word for
`1.0e10` encodes-then-decodes to 240.0 (e4m3fnuz) and 57344.0 (e5m2fnuz),
and `-1.0e10` to the negated bounds. -/
theorem encode_saturation (w rng : Nat) (hnan : (Fnuz.decompose w).isNan = false) :
    (((Fnuz.decompose w).isInf = true ∨ 240 < |Fnuz.val32 w|) →
        Fnuz.encode Fnuz.e4m3fnuzCfg w false rng =
          (if (Fnuz.decompose w).sign then 128 else 0) + 127) ∧
    (((Fnuz.decompose w).isInf = true ∨ 57344 < |Fnuz.val32 w|) →
        Fnuz.encode Fnuz.e5m2fnuzCfg w false rng =
          (if (Fnuz.decompose w).sign then 128 else 0) + 127) ∧
    Fnuz.val32 (Fnuz.compose ⟨false, 160, 1377017⟩) = 10000000000 ∧
    Fnuz.val32 (Fnuz.decode Fnuz.e4m3fnuzCfg
      (Fnuz.encode Fnuz.e4m3fnuzCfg (Fnuz.compose ⟨false, 160, 1377017⟩) false 0)) = 240 ∧
    Fnuz.val32 (Fnuz.decode Fnuz.e4m3fnuzCfg
      (Fnuz.encode Fnuz.e4m3fnuzCfg (Fnuz.compose ⟨true, 160, 1377017⟩) false 0)) = -240 ∧
    Fnuz.val32 (Fnuz.decode Fnuz.e5m2fnuzCfg
      (Fnuz.encode Fnuz.e5m2fnuzCfg (Fnuz.compose ⟨false, 160, 1377017⟩) false 0)) = 57344 ∧
    Fnuz.val32 (Fnuz.decode Fnuz.e5m2fnuzCfg
      (Fnuz.encode Fnuz.e5m2fnuzCfg (Fnuz.compose ⟨true, 160, 1377017⟩) false 0)) = -57344 := by
  refine ⟨Fnuz.encode_saturates_e4m3 w rng hnan, Fnuz.encode_saturates_e5m2 w rng hnan,
    ?_, ?_, ?_, ?_, ?_⟩
  · norm_num [Fnuz.val32, Fnuz.fval, Fnuz.compose, Fnuz.decompose, Fnuz.sig24, Fnuz.unbExp]
  · rw [show Fnuz.encode Fnuz.e4m3fnuzCfg (Fnuz.compose ⟨false, 160, 1377017⟩) false 0 = 127
      from by decide]
    rw [Fnuz.val32_decode_e4m3 127 (by norm_num)]
    norm_num [Fnuz.specDecodeVal, Fnuz.e4m3fnuzCfg]
  · rw [show Fnuz.encode Fnuz.e4m3fnuzCfg (Fnuz.compose ⟨true, 160, 1377017⟩) false 0 = 255
      from by decide]
    rw [Fnuz.val32_decode_e4m3 255 (by norm_num)]
    norm_num [Fnuz.specDecodeVal, Fnuz.e4m3fnuzCfg]
  · rw [show Fnuz.encode Fnuz.e5m2fnuzCfg (Fnuz.compose ⟨false, 160, 1377017⟩) false 0 = 127
      from by decide]
    rw [Fnuz.val32_decode_e5m2 127 (by norm_num)]
    norm_num [Fnuz.specDecodeVal, Fnuz.e5m2fnuzCfg]
  · rw [show Fnuz.encode Fnuz.e5m2fnuzCfg (Fnuz.compose ⟨true, 160, 1377017⟩) false 0 = 255
      from by decide]
    rw [Fnuz.val32_decode_e5m2 255 (by norm_num)]
    norm_num [Fnuz.specDecodeVal, Fnuz.e5m2fnuzCfg]

/-- Witness for C4 at the float32 word for `2^40` with stochastic-irrelevant
rng 3. -/
theorem encode_saturation_witness :
    ((((Fnuz.decompose (Fnuz.compose ⟨false, 167, 0⟩)).isInf = true ∨
        240 < |Fnuz.val32 (Fnuz.compose ⟨false, 167, 0⟩)|) →
        Fnuz.encode Fnuz.e4m3fnuzCfg (Fnuz.compose ⟨false, 167, 0⟩) false 3 =
          (if (Fnuz.decompose (Fnuz.compose ⟨false, 167, 0⟩)).sign then 128 else 0) + 127)) ∧
    Fnuz.encode Fnuz.e4m3fnuzCfg (Fnuz.compose ⟨false, 167, 0⟩) false 3 = 127 := by
  have h := encode_saturation (Fnuz.compose ⟨false, 167, 0⟩) 3 (by decide)
  refine ⟨h.1, ?_⟩
  have h2 := h.1 (Or.inr (by
    unfold Fnuz.val32
    rw [Fnuz.abs_fval]
    norm_num [Fnuz.compose, Fnuz.decompose, Fnuz.sig24, Fnuz.unbExp]))
  simpa using h2

/-- C5: for every non-NaN float32 word whose magnitude is at most the
format's maximum finite magnitude, decoding the standard-rounded encoding
differs from the original value by at most one unit in the last place at the
target mantissa width — 3 bits for e4m3fnuz, 2 bits for e5m2fnuz. -/
theorem encode_decode_ulp (w rng : Nat) (hnan : (Fnuz.decompose w).isNan = false) :
    (|Fnuz.val32 w| ≤ 240 →
      |Fnuz.val32 (Fnuz.decode Fnuz.e4m3fnuzCfg (Fnuz.encode Fnuz.e4m3fnuzCfg w false rng)) -
          Fnuz.val32 w| ≤ Fnuz.ulpAt Fnuz.e4m3fnuzCfg (Fnuz.decompose w)) ∧
    (|Fnuz.val32 w| ≤ 57344 →
      |Fnuz.val32 (Fnuz.decode Fnuz.e5m2fnuzCfg (Fnuz.encode Fnuz.e5m2fnuzCfg w false rng)) -
          Fnuz.val32 w| ≤ Fnuz.ulpAt Fnuz.e5m2fnuzCfg (Fnuz.decompose w)) := by
  constructor
  · intro hle
    have hinf : (Fnuz.decompose w).isInf = false := by
      rcases Bool.eq_false_or_eq_true (Fnuz.decompose w).isInf with h | h
      · exfalso
        have h1 := Fnuz.fval_isInf _ h
        unfold Fnuz.val32 at hle
        rw [h1] at hle
        norm_num at hle
      · exact h
    have hb : |Fnuz.fval (Fnuz.decompose w)| ≤
        |Fnuz.fval (Fnuz.e4m3fnuzCfg.maxBoundDF false)| := by
      rw [Fnuz.maxBound_abs_e4m3]
      exact hle
    have hcode : Fnuz.encode Fnuz.e4m3fnuzCfg w false rng ≠ 128 :=
      Fnuz.encodeDF_ne_sentinel _ (by norm_num [Fnuz.e4m3fnuzCfg])
        (by norm_num [Fnuz.e4m3fnuzCfg]) (by norm_num [Fnuz.e4m3fnuzCfg])
        (by norm_num [Fnuz.e4m3fnuzCfg]) _ (Fnuz.decompose_valid w) hnan false rng
    rw [Fnuz.val32_decode_e4m3 _ hcode]
    exact Fnuz.encodeDF_err Fnuz.e4m3fnuzCfg (by norm_num [Fnuz.e4m3fnuzCfg])
      (by norm_num [Fnuz.e4m3fnuzCfg]) (by norm_num [Fnuz.e4m3fnuzCfg])
      (by norm_num [Fnuz.e4m3fnuzCfg])
      (by norm_num [Fnuz.FormatConfig.maxExp, Fnuz.e4m3fnuzCfg])
      (Fnuz.decompose w) (Fnuz.decompose_valid w) hnan hinf hb false rng
  · intro hle
    have hinf : (Fnuz.decompose w).isInf = false := by
      rcases Bool.eq_false_or_eq_true (Fnuz.decompose w).isInf with h | h
      · exfalso
        have h1 := Fnuz.fval_isInf _ h
        unfold Fnuz.val32 at hle
        rw [h1] at hle
        norm_num at hle
      · exact h
    have hb : |Fnuz.fval (Fnuz.decompose w)| ≤
        |Fnuz.fval (Fnuz.e5m2fnuzCfg.maxBoundDF false)| := by
      rw [Fnuz.maxBound_abs_e5m2]
      exact hle
    have hcode : Fnuz.encode Fnuz.e5m2fnuzCfg w false rng ≠ 128 :=
      Fnuz.encodeDF_ne_sentinel _ (by norm_num [Fnuz.e5m2fnuzCfg])
        (by norm_num [Fnuz.e5m2fnuzCfg]) (by norm_num [Fnuz.e5m2fnuzCfg])
        (by norm_num [Fnuz.e5m2fnuzCfg]) _ (Fnuz.decompose_valid w) hnan false rng
    rw [Fnuz.val32_decode_e5m2 _ hcode]
    exact Fnuz.encodeDF_err Fnuz.e5m2fnuzCfg (by norm_num [Fnuz.e5m2fnuzCfg])
      (by norm_num [Fnuz.e5m2fnuzCfg]) (by norm_num [Fnuz.e5m2fnuzCfg])
      (by norm_num [Fnuz.e5m2fnuzCfg])
      (by norm_num [Fnuz.FormatConfig.maxExp, Fnuz.e5m2fnuzCfg])
      (Fnuz.decompose w) (Fnuz.decompose_valid w) hnan hinf hb false rng

/-- Witness for C5 at the float32 word `0x3FC00000` (the value 1.5). -/
theorem encode_decode_ulp_witness :
    (Fnuz.decompose 1069547520).isNan = false ∧
    |Fnuz.val32 (Fnuz.decode Fnuz.e4m3fnuzCfg
        (Fnuz.encode Fnuz.e4m3fnuzCfg 1069547520 false 0)) - Fnuz.val32 1069547520| ≤
      Fnuz.ulpAt Fnuz.e4m3fnuzCfg (Fnuz.decompose 1069547520) ∧
    |Fnuz.val32 (Fnuz.decode Fnuz.e5m2fnuzCfg
        (Fnuz.encode Fnuz.e5m2fnuzCfg 1069547520 false 0)) - Fnuz.val32 1069547520| ≤
      Fnuz.ulpAt Fnuz.e5m2fnuzCfg (Fnuz.decompose 1069547520) :=
  ⟨by decide,
    (encode_decode_ulp 1069547520 0 (by decide)).1 (by norm_num [Fnuz.val32, Fnuz.fval,
      Fnuz.decompose, Fnuz.sig24, Fnuz.unbExp, abs_le]),
    (encode_decode_ulp 1069547520 0 (by decide)).2 (by norm_num [Fnuz.val32, Fnuz.fval,
      Fnuz.decompose, Fnuz.sig24, Fnuz.unbExp, abs_le])⟩
